import Mathlib

/-!
Verification of the convex-hull core (`isl_convex_hull.c`) of the isl
integer polyhedral library, against its natural-language specification.

The external collaborators (exact LP solver `isl_solve_lp`, simplex tableau,
Gaussian elimination, affine hull) live outside `src/`; following the spec,
they are modelled as oracle parameters constrained by the spec's contracts
(LP four-outcome contract of spec section 4.1), or, where a concrete value is
needed, by definitions explicitly marked as modelled from the spec.

Conventions, mirroring the data model of the source (spec section 3):
a constraint row is a list of integers `c = c0 :: b`, standing for the
halfspace `c0 + b . x >= 0` (equality rows stand for `c0 + b . x = 0`);
points are rational, represented as functions `Nat -> Rat` (the row only
reads finitely many coordinates).
-/

/-- Outcome of the external exact LP primitive `isl_solve_lp`
(spec section 4.1): minimize an objective over a polyhedron, returning
the rational optimum `num/den`, or empty / unbounded / error. -/
inductive LpResult where
  | ok (num den : ℤ)
  | empty
  | unbounded
  | error
deriving DecidableEq

/-- Dot product of an integer coefficient vector with a rational point. -/
def dotF : List ℤ → (ℕ → ℚ) → ℚ
  | [], _ => 0
  | a :: t, x => (a : ℚ) * x 0 + dotF t (fun i => x (i + 1))

/-- Value of the affine form of a constraint row at a point:
`c0 + b . x` for a row `c0 :: b`. -/
def affF : List ℤ → (ℕ → ℚ) → ℚ
  | [], _ => 0
  | c :: b, x => (c : ℚ) + dotF b x

/-- A basic set in the sense of the source: conjunction of equality rows and
inequality rows (`struct isl_basic_set`, restricted as in the core to the
pure-set case with no parameters or divs). -/
structure isl_basic_set where
  eqs : List (List ℤ)
  ineqs : List (List ℤ)
deriving DecidableEq

/-- Points satisfying all equalities and inequalities of a basic set. -/
def bsetSem (bs : isl_basic_set) : Set (ℕ → ℚ) :=
  {x | (∀ e ∈ bs.eqs, affF e x = 0) ∧ (∀ r ∈ bs.ineqs, 0 ≤ affF r x)}

/-- Union of the members of a set (`struct isl_set`). -/
def unionSem (set : List isl_basic_set) : Set (ℕ → ℚ) :=
  {x | ∃ b ∈ set, x ∈ bsetSem b}

/-- Semantics of the j-th member of a set; out-of-range members are empty. -/
def memSem (set : List isl_basic_set) (j : ℕ) : Set (ℕ → ℚ) :=
  match set.get? j with
  | some b => bsetSem b
  | none => ∅

/-- Integer linear combination of two rows, as `isl_seq_combine`:
entry-wise `m * v1 + n * v2`. -/
def seqCombine (m : ℤ) (v1 : List ℤ) (n : ℤ) (v2 : List ℤ) : List ℤ :=
  List.zipWith (fun a b => m * a + n * b) v1 v2

/-- Embedding of `wrap_facet` (src/isl_convex_hull.c:460-516), parametric in
the outcome of the LP of `wrap_constraints`.  On `ok num den` the code negates
`num` and overwrites the facet row with `isl_seq_combine(facet, -num, facet,
den, ridge)`; on `unbounded` the facet row is left untouched; on `empty` or
`error` the trailing `isl_assert` fails and NULL (here `none`) is returned. -/
def wrap_facet (facet ridge : List ℤ) (res : LpResult) : Option (List ℤ) :=
  match res with
  | .ok num den => some (seqCombine (-num) facet den ridge)
  | .unbounded => some facet
  | .empty => none
  | .error => none

/-- Embedding of one candidate step of the inner loop of `extend`
(src/isl_convex_hull.c:704-717): the candidate row is seeded as a copy of
`hull->ineq[i]`, wrapped around `ridge` with LP outcome `res`, then compared
by exact row equality (`isl_seq_eq`) against every inequality already in the
hull; it is freed if equal to one of them, otherwise it stays appended. -/
def processRidge (rows : List (List ℤ)) (i : ℕ) (ridge : List ℤ)
    (res : LpResult) : Option (List (List ℤ)) :=
  (wrap_facet (rows.getD i []) ridge res).map
    (fun cand => if cand ∈ rows then rows else rows ++ [cand])

/-- Claim C6 comparison predicate: one row is a positive integer multiple of
another, i.e. the two describe the same halfspace. -/
def posMultiple (r s : List ℤ) : Prop :=
  ∃ k : ℤ, 0 < k ∧ s = r.map (fun a => k * a)

/-- A one-dimensional basic set, as used by `convex_hull_1d`: rows are pairs
`(c0, c1)` standing for `c0 + c1 * x >= 0` (resp. `= 0`). -/
structure BSet1 where
  eqs : List (ℤ × ℤ)
  ineqs : List (ℤ × ℤ)
deriving DecidableEq

/-- Negation of a 1-D row, as `isl_seq_neg` over two entries. -/
def negRow (r : ℤ × ℤ) : ℤ × ℤ := (-r.1, -r.2)

/-- Bound value of a 1-D row `(c0, c1)` with `c1 ≠ 0`: the constraint
`c0 + c1 x >= 0` bounds `x` by `-c0/c1` (from below if `c1 > 0`,
from above if `c1 < 0`). -/
def boundVal (r : ℤ × ℤ) : ℚ := -(r.1 : ℚ) / (r.2 : ℚ)

/-- Seeding phase of `convex_hull_1d` (src/isl_convex_hull.c:756-777): the
first member's single equality fixes both bounds (with sign normalization);
otherwise each inequality of the first member seeds the lower (positive
coefficient) or upper (otherwise) bound, later rows overwriting earlier. -/
def seed1d (b : BSet1) : Option (ℤ × ℤ) × Option (ℤ × ℤ) :=
  match b.eqs with
  | e :: _ =>
    if 0 < e.2 then (some e, some (negRow e)) else (some (negRow e), some e)
  | [] =>
    b.ineqs.foldl
      (fun lu r => if 0 < r.2 then (some r, lu.2) else (lu.1, some r))
      (none, none)

/-- Update of the running lower bound by an equality row of a later member
(src/isl_convex_hull.c:789-796): cross-multiplied comparison, replacing by
the equality row (sign-normalized) when it is the weaker bound. -/
def stepEqLower (lo : Option (ℤ × ℤ)) (e : ℤ × ℤ) : Option (ℤ × ℤ) :=
  match lo with
  | none => none
  | some l =>
    let a := l.1 * e.2
    let b := l.2 * e.1
    if a < b ∧ 0 < e.2 then some e
    else if b < a ∧ e.2 < 0 then some (negRow e) else some l

/-- Update of the running upper bound by an equality row
(src/isl_convex_hull.c:797-804). -/
def stepEqUpper (up : Option (ℤ × ℤ)) (e : ℤ × ℤ) : Option (ℤ × ℤ) :=
  match up with
  | none => none
  | some u =>
    let a := u.1 * e.2
    let b := u.2 * e.1
    if a < b ∧ 0 < e.2 then some (negRow e)
    else if b < a ∧ e.2 < 0 then some e else some u

/-- Update of the running lower bound by an inequality row
(src/isl_convex_hull.c:811-816): only rows with positive coefficient are
considered; the row replaces the running bound when the cross-multiplied
comparison `lower[0]*r[1] < lower[1]*r[0]` holds. -/
def stepIneqLower (lo : Option (ℤ × ℤ)) (r : ℤ × ℤ) : Option (ℤ × ℤ) :=
  match lo with
  | none => none
  | some l => if 0 < r.2 ∧ l.1 * r.2 < l.2 * r.1 then some r else some l

/-- Update of the running upper bound by an inequality row
(src/isl_convex_hull.c:817-822). -/
def stepIneqUpper (up : Option (ℤ × ℤ)) (r : ℤ × ℤ) : Option (ℤ × ℤ) :=
  match up with
  | none => none
  | some u => if r.2 < 0 ∧ u.2 * r.1 < u.1 * r.2 then some r else some u

/-- Processing of one member in the main loop of `convex_hull_1d`
(src/isl_convex_hull.c:781-828): bounds are updated by every equality and
inequality row, then a member providing no lower (resp. upper) bound erases
the running lower (resp. upper) bound. -/
def stepMember (lu : Option (ℤ × ℤ) × Option (ℤ × ℤ)) (bs : BSet1) :
    Option (ℤ × ℤ) × Option (ℤ × ℤ) :=
  let lu1 := bs.eqs.foldl (fun p e => (stepEqLower p.1 e, stepEqUpper p.2 e)) lu
  let lu2 := bs.ineqs.foldl
    (fun p r => (stepIneqLower p.1 r, stepIneqUpper p.2 r)) lu1
  let hasL := !bs.eqs.isEmpty || bs.ineqs.any (fun r => decide (0 < r.2))
  let hasU := !bs.eqs.isEmpty || bs.ineqs.any (fun r => decide (r.2 < 0))
  ((if hasL then lu2.1 else none), (if hasU then lu2.2 else none))

/-- Embedding of `convex_hull_1d` (src/isl_convex_hull.c:733-852) after the
external per-member simplification and empty-part removal: seed the bounds
from the first member, fold the member loop (which starts again at the first
member, as in the source) and emit the surviving bounds as the inequalities
of the hull.  The source's asserts (`set->n > 0`, first member has at most
one equality) are the `none` cases. -/
def convex_hull_1d (sets : List BSet1) : Option (List (ℤ × ℤ)) :=
  match sets with
  | [] => none
  | s0 :: _ =>
    if 0 < s0.eqs.length ∧ s0.eqs.length ≠ 1 then none
    else
      let lu := sets.foldl stepMember (seed1d s0)
      some (lu.1.toList ++ lu.2.toList)

/-- Definition following the spec's words for claim C3 (spec section 4.10):
tighten the running lower bound to the most restrictive of the two, by exact
rational comparison.  For lower bounds, more restrictive means the larger
bound value. -/
def specTightenLower (l r : ℤ × ℤ) : ℤ × ℤ :=
  if boundVal l < boundVal r then r else l

/-- Cheap sign filter of `isl_basic_map_constraint_is_redundant`
(src/isl_convex_hull.c:39-51): true when some variable `x_i` with `c_i ≠ 0`
has no inequality of the basic map with the same sign in `x_i`. -/
def signFilterHit (total : ℕ) (ineqs : List (List ℤ)) (c : List ℤ) : Bool :=
  (List.range total).any (fun i =>
    !(c.getD (1 + i) 0 == 0) &&
      ineqs.all (fun r => !(Int.sign (r.getD (1 + i) 0) == Int.sign (c.getD (1 + i) 0))))

/-- Embedding of `isl_basic_map_constraint_is_redundant`
(src/isl_convex_hull.c:28-67), parametric in the result of the LP that
minimizes `c[1..] . x` over the basic map.  The sign filter returns 0
before any LP is consulted; otherwise unbounded and empty yield 0, error
yields -1 (`none`), and on `ok num den` the code computes
`opt_n + opt_d * c[0]` and returns its non-negativity. -/
def isl_basic_map_constraint_is_redundant (total : ℕ) (ineqs : List (List ℤ))
    (c : List ℤ) (res : LpResult) : Option Bool :=
  if signFilterHit total ineqs c then some false
  else match res with
  | .unbounded => some false
  | .error => none
  | .empty => some false
  | .ok num den => some (decide (0 ≤ num + den * c.getD 0 0))

/-- Member loop of `uset_is_bound` (src/isl_convex_hull.c:119-162),
parametric in the LP oracle `lp` (member index and current objective
coefficients).  The running row is split into its constant `h` (`c[0]`) and
coefficients `t` (`c+1`); `flags` are the members' EMPTY flags; `first`
mirrors the local `first`.  On `unbounded` the loop breaks, the constant is
negated and 0 is returned; on `error`, -1 (`none`); on `empty` the member is
marked empty and skipped; on `ok num den` the whole row is scaled by `den`
when `den ≠ 1` and the constant is lowered to `num` when smaller (or first).
After the loop the constant is negated and 1 is returned.  The loop counts the remaining members
structurally (first argument, `n - j`) and carries the next index `j`. -/
def usetLoop (lp : ℕ → List ℤ → LpResult) :
    ℕ → ℕ → (ℕ → Bool) → ℤ → List ℤ → Bool →
      Option (Bool × ℤ × List ℤ × (ℕ → Bool))
  | 0, _, flags, h, t, _ => some (true, -h, t, flags)
  | k + 1, j, flags, h, t, first =>
    if flags j then usetLoop lp k (j + 1) flags h t first
    else
      match lp j t with
      | .unbounded => some (false, -h, t, flags)
      | .error => none
      | .empty =>
        usetLoop lp k (j + 1) (fun i => if i = j then true else flags i) h t
          first
      | .ok num den =>
        let h1 := if den = 1 then h else den * h
        let t1 := if den = 1 then t else t.map (fun a => den * a)
        let h2 := if first || decide (num < h1) then num else h1
        usetLoop lp k (j + 1) flags h2 t1 false

/-- Embedding of `uset_is_bound` (src/isl_convex_hull.c:119-162) on a set
with `n` members: run the member loop from the first member with `first`
set. -/
def uset_is_bound (lp : ℕ → List ℤ → LpResult) (n : ℕ) (flags : ℕ → Bool)
    (h : ℤ) (t : List ℤ) : Option (Bool × ℤ × List ℤ × (ℕ → Bool)) :=
  usetLoop lp n 0 flags h t true

/-- Candidate loop of `isl_map_simple_hull` (src/isl_convex_hull.c:1244-1260):
each inequality row of each member is copied, `uset_is_bound` is run on the
copy (threading the members' EMPTY flags, which `uset_is_bound` may set), and
the tightened row is kept exactly when it is a bound of the set. -/
def candLoop (lp : ℕ → List ℤ → LpResult) (n : ℕ) :
    List (List ℤ) → (ℕ → Bool) → List (List ℤ) →
    Option (List (List ℤ) × (ℕ → Bool))
  | [], flags, acc => some (acc, flags)
  | r :: rest, flags, acc =>
    match uset_is_bound lp n flags (r.headD 0) r.tail with
    | none => none
    | some (b, h1, t1, flags1) =>
      candLoop lp n rest flags1 (if b then acc ++ [h1 :: t1] else acc)

/-- Flags of a basic map that the fast paths of `isl_basic_map_convex_hull`
inspect, together with its constraint rows. -/
structure isl_basic_map where
  eqs : List (List ℤ)
  ineqs : List (List ℤ)
  flagEmpty : Bool
  flagNoRedundant : Bool
deriving DecidableEq

/-- Elimination of one row against a pivot row at the pivot's first non-zero
variable column, fraction-free (`row := a * row - c * pivot`). -/
def gaussElimRow (pivot row : List ℤ) : List ℤ :=
  match pivot.tail.findIdx? (fun a => a ≠ 0) with
  | none => row
  | some p =>
    let a := pivot.getD (1 + p) 0
    let c := row.getD (1 + p) 0
    if c = 0 then row else List.zipWith (fun x y => a * x - c * y) row pivot

/-- Forward elimination of a list of equality rows: each row is reduced by
every earlier (already reduced) row before being kept as a pivot. -/
def gaussAux (pivots : List (List ℤ)) : List (List ℤ) → List (List ℤ)
  | [] => []
  | e :: rest =>
    let e1 := pivots.foldl (fun r p => gaussElimRow p r) e
    e1 :: gaussAux (pivots ++ [e1]) rest

/-- Modelled from the spec: `isl_basic_map_gauss` is code of this repository
outside src/ (only called from src/isl_convex_hull.c:91); the spec lists
Gaussian elimination on the equalities as its behaviour (sections 1 and 4.3).
It is modelled as forward elimination of the equality rows, leaving
inequalities and flags untouched (any Gaussian elimination rewrites
dependent equality rows, which is all the claim analysis needs). -/
def isl_basic_map_gauss_model (b : isl_basic_map) : isl_basic_map :=
  { b with eqs := gaussAux [] b.eqs }

/-- Embedding of `isl_basic_map_convex_hull` (src/isl_convex_hull.c:84-107),
parametric in the external Gaussian elimination `gauss` and in the tableau
pipeline `tab` (detect equalities, detect redundant, update, set flags) that
the slow path delegates to: the input is first passed through `gauss`, then
the EMPTY, NO_REDUNDANT and at-most-one-inequality fast paths return it
without further modification. -/
def isl_basic_map_convex_hull (gauss : isl_basic_map → isl_basic_map)
    (tab : isl_basic_map → isl_basic_map) (bmap : isl_basic_map) :
    isl_basic_map :=
  let b := gauss bmap
  if b.flagEmpty then b
  else if b.flagNoRedundant then b
  else if b.ineqs.length ≤ 1 then b
  else tab b

/-- Points satisfying all equality and inequality rows of a basic map (the
flags do not change the described point set). -/
def bmapSem (b : isl_basic_map) : Set (ℕ → ℚ) := bsetSem ⟨b.eqs, b.ineqs⟩

/-- Two coefficient vectors that are positive multiples of a common vector:
they define the same halfspace direction.  This is the relation the external
row rewrites (redundancy removal keeps a row; gcd normalization divides one)
maintain on the surviving inequality rows. -/
def sameDirection (r s : List ℤ) : Prop :=
  ∃ p q : ℤ, 0 < p ∧ 0 < q ∧
    r.map (fun a => p * a) = s.map (fun a => q * a)

/-- Embedding of `isl_map_simple_hull` (src/isl_convex_hull.c:1199-1275) on a
pure set (parameters and divisions are stripped by external bridges): the
empty map gives the canonical empty basic set, a single member is returned
as a copy; otherwise the affine hull `ah` of the set (external, an oracle
here) forms the equality rows, the candidate loop collects the
bound-tightened translates of all member inequalities, and the result is
passed through `isl_basic_set_simplify` and `isl_basic_set_finalize` (both
outside src/, together the oracle `simplify`) and then through
`isl_basic_set_convex_hull` (src/isl_convex_hull.c:109-113, a cast to
`isl_basic_map_convex_hull`, embedded above from src/isl_convex_hull.c:84-107),
whose external Gaussian-elimination and tableau collaborators are the
oracles `gauss` and `tab`. -/
def isl_map_simple_hull (lp : ℕ → List ℤ → LpResult) (ah : List (List ℤ))
    (simplify gauss tab : isl_basic_map → isl_basic_map)
    (map : List isl_basic_set) : Option isl_basic_set :=
  match map with
  | [] => some ⟨[[1]], []⟩
  | [b] => some b
  | _ =>
    match candLoop lp map.length (map.flatMap isl_basic_set.ineqs)
        (fun _ => false) [] with
    | none => none
    | some (cands, _) =>
      let bm := isl_basic_map_convex_hull gauss tab
        (simplify ⟨ah, cands, false, false⟩)
      some ⟨bm.eqs, bm.ineqs⟩

/-- First member of the concrete simple-hull counterexample input: the unit
square `{2x ≥ 0, y ≥ 0, 1-x ≥ 0, 1-y ≥ 0}` (the doubled first row is a
legal input constraint). -/
def m0CE : isl_basic_set := ⟨[], [[0,2,0],[0,0,1],[1,-1,0],[1,0,-1]]⟩

/-- Second member: the triangle `{y ≥ 0, 1-x ≥ 0, -1+4x-3y ≥ 0}` with
vertices `(1/4,0)`, `(1,0)` and `(1,1)`, contained in the unit square. -/
def m1CE : isl_basic_set := ⟨[], [[0,0,1],[1,-1,0],[-1,4,-3]]⟩

/-- Exact minima of the objectives that the simple hull queries on the two
concrete members (the values a correct `isl_solve_lp` returns there); in
particular `min 2x` over the triangle is the non-integral `1/2`. -/
def lpCE (j : ℕ) (b : List ℤ) : LpResult :=
  if j = 0 then
    if b = [2,0] then .ok 0 1
    else if b = [0,1] then .ok 0 1
    else if b = [-1,0] then .ok (-1) 1
    else if b = [0,-1] then .ok (-1) 1
    else if b = [4,-3] then .ok (-3) 1
    else .error
  else if j = 1 then
    if b = [2,0] then .ok 1 2
    else if b = [0,1] then .ok 0 1
    else if b = [-1,0] then .ok (-1) 1
    else if b = [0,-1] then .ok (-1) 1
    else if b = [4,-3] then .ok 1 1
    else .error
  else .error

/-- Tableau pipeline instance for the concrete simple-hull run: on the
candidate basic map of that run it behaves as the real detect-redundant
pipeline would — it removes the duplicate rows and the redundant row
`[3,4,-3]` (implied by `4x ≥ 0` and `1-y ≥ 0`), keeps the remaining rows
unrewritten and sets NO_REDUNDANT; on any other input it is the identity.
Its point-set preservation and row provenance are proved below. -/
def tabCE (b : isl_basic_map) : isl_basic_map :=
  if b = ⟨[], [[0, 4, 0], [0, 0, 1], [1, -1, 0], [1, 0, -1], [0, 0, 1],
      [1, -1, 0], [3, 4, -3]], false, false⟩ then
    ⟨[], [[0, 4, 0], [0, 0, 1], [1, -1, 0], [1, 0, -1]], false, true⟩
  else b

/-- A sound LP oracle for the witness instances: the zero objective is
bounded with minimum 0 on any member, anything else is reported unbounded. -/
def lpZW (_j : ℕ) (b : List ℤ) : LpResult :=
  if b.all (fun a => a == 0) then .ok 0 1 else .unbounded

/-- A rational point of the plane, as a coordinate function. -/
def pt2 (a b : ℚ) : ℕ → ℚ := fun i => if i = 0 then a else if i = 1 then b else 0

theorem dotF_map_mul (m : ℤ) (t : List ℤ) (x : ℕ → ℚ) :
    dotF (t.map (fun a => m * a)) x = m * dotF t x := by
  induction t generalizing x with
  | nil => simp [dotF]
  | cons a t ih => simp [dotF, ih]; ring

theorem dotF_zero_of_all_zero (t : List ℤ) (x : ℕ → ℚ) (h : ∀ a ∈ t, a = 0) :
    dotF t x = 0 := by
  induction t generalizing x with
  | nil => rfl
  | cons a t ih =>
    have ha : a = 0 := h a (by simp)
    simp [dotF, ha, ih (fun i => x (i + 1)) (fun b hb => h b (by simp [hb]))]

theorem dotF_combo (b : List ℤ) (p q : ℚ) (x y : ℕ → ℚ) :
    dotF b (fun i => p * x i + q * y i) = p * dotF b x + q * dotF b y := by
  induction b generalizing x y with
  | nil => simp [dotF]
  | cons a t ih => simp [dotF, ih]; ring

theorem affF_combo (r : List ℤ) (p q : ℚ) (x y : ℕ → ℚ) (hpq : p + q = 1) :
    affF r (fun i => p * x i + q * y i) = p * affF r x + q * affF r y := by
  cases r with
  | nil => simp [affF]
  | cons c b =>
    simp only [affF]
    rw [dotF_combo]
    linear_combination (-(c : ℚ)) * hpq

theorem bsetSem_convex (bs : isl_basic_set) : Convex ℚ (bsetSem bs) := by
  intro x hx y hy p q hp hq hpq
  have hpt : p • x + q • y = fun i => p * x i + q * y i := by
    funext i; simp
  constructor
  · intro e he
    rw [hpt, affF_combo e p q x y hpq, hx.1 e he, hy.1 e he]; ring
  · intro r hr
    rw [hpt, affF_combo r p q x y hpq]
    have := hx.2 r hr
    have := hy.2 r hr
    positivity

/-- Claim C2 (amended): in `wrap_facet`, an unbounded LP returns the original
facet row unchanged, and empty or error LP outcomes yield the no-result
sentinel, as claimed; but on `ok` with optimum `num/den` the returned row is
the combination `(-num)*facet + den*ridge` (the code negates the returned
numerator before combining), not `num*facet + den*ridge`. -/
theorem wrap_facet_cases (facet ridge : List ℤ) (num den : ℤ) :
    wrap_facet facet ridge (.ok num den) =
        some (seqCombine (-num) facet den ridge) ∧
    wrap_facet facet ridge .unbounded = some facet ∧
    wrap_facet facet ridge .empty = none ∧
    wrap_facet facet ridge .error = none :=
  ⟨rfl, rfl, rfl, rfl⟩

/-- Claim C2 counterexample: with facet `[1,0]`, ridge `[0,1]` and LP optimum
`1/1`, the code returns `(-1)*facet + 1*ridge = [-1,1]`, which differs from
the claimed `num*facet + den*ridge = [1,1]`. -/
theorem wrap_facet_claim_cex :
    wrap_facet [1, 0] [0, 1] (.ok 1 1) = some [-1, 1] ∧
    seqCombine 1 [1, 0] 1 [0, 1] = [1, 1] ∧
    ([-1, 1] : List ℤ) ≠ [1, 1] := by
  refine ⟨rfl, rfl, ?_⟩
  decide

/-- Claim C10: when `wrap_facet` takes its unbounded branch, the candidate
row equals the seeded copy of `hull->ineq[i]`, is found by the duplicate scan
(the row at index `i` itself precedes it) and is freed, so an unbounded wrap
never adds an inequality to the hull. -/
theorem extend_unbounded_no_insert (rows : List (List ℤ)) (i : ℕ)
    (ridge : List ℤ) (h : i < rows.length) :
    processRidge rows i ridge .unbounded = some rows := by
  have hmem : rows.getD i [] ∈ rows := by
    rw [List.getD_eq_getElem rows [] h]
    exact List.getElem_mem h
  show (wrap_facet (rows.getD i []) ridge .unbounded).map
      (fun cand => if cand ∈ rows then rows else rows ++ [cand]) = some rows
  rw [show wrap_facet (rows.getD i []) ridge .unbounded = some (rows.getD i [])
    from rfl]
  simp only [Option.map_some']
  rw [if_pos hmem]

/-- Claim C10 witness: the unbounded wrap on a concrete one-row hull leaves
the hull unchanged. -/
theorem extend_unbounded_no_insert_witness :
    processRidge [[0, 1]] 0 [1, 0] .unbounded = some [[0, 1]] :=
  extend_unbounded_no_insert [[0, 1]] 0 [1, 0] (by decide)

/-- Claim C6 (amended): every wrapped candidate is compared by exact row
equality to every inequality already in the hull and appended only if novel,
so the growing hull never holds two identical rows; the appended row is not
gcd-normalized, and rows that are distinct positive multiples of each other
(the same halfspace) are not detected as duplicates. -/
theorem extend_dedup_nodup (rows : List (List ℤ)) (i : ℕ) (ridge : List ℤ)
    (res : LpResult) (rows1 : List (List ℤ)) (hnd : rows.Nodup)
    (hres : processRidge rows i ridge res = some rows1) :
    rows1.Nodup ∧
    (rows1 = rows ∨
      ∃ cand, wrap_facet (rows.getD i []) ridge res = some cand ∧
        cand ∉ rows ∧ rows1 = rows ++ [cand]) := by
  unfold processRidge at hres
  cases hw : wrap_facet (rows.getD i []) ridge res with
  | none => rw [hw] at hres; exact absurd hres (by simp)
  | some cand =>
    rw [hw] at hres
    simp only [Option.map_some', Option.some.injEq] at hres
    by_cases hmem : cand ∈ rows
    · rw [if_pos hmem] at hres
      cases hres
      exact ⟨hnd, Or.inl rfl⟩
    · rw [if_neg hmem] at hres
      cases hres
      refine ⟨?_, Or.inr ⟨cand, rfl, hmem, rfl⟩⟩
      simp [List.nodup_append, hnd, hmem]

/-- Claim C6 witness: a novel candidate is appended and the result has no
duplicate rows. -/
theorem extend_dedup_nodup_witness :
    ([[0, 1], [1, 0]] : List (List ℤ)).Nodup ∧
    (([[0, 1], [1, 0]] : List (List ℤ)) = [[0, 1]] ∨
      ∃ cand, wrap_facet ([[0, 1]].getD 0 []) [1, 0] (.ok 0 1) = some cand ∧
        cand ∉ [[0, 1]] ∧ [[0, 1], [1, 0]] = [[0, 1]] ++ [cand]) :=
  extend_dedup_nodup [[0, 1]] 0 [1, 0] (.ok 0 1) [[0, 1], [1, 0]]
    (by decide) (by decide)

/-- Claim C6 counterexample: the hull holds the initial facet `[0,2,2]` and
the facet `[0,1,0]`; wrapping `[0,1,0]` around ridge `[0,0,1]` with LP
optimum `-1/1` yields the candidate `[0,1,1]`, which is not row-equal to any
present row and is appended — yet `[0,2,2]` is the positive multiple
`2 * [0,1,1]`, so two inequalities of the hull now describe the same
halfspace. -/
theorem extend_dedup_claim_cex :
    processRidge [[0, 2, 2], [0, 1, 0]] 1 [0, 0, 1] (.ok (-1) 1) =
      some [[0, 2, 2], [0, 1, 0], [0, 1, 1]] ∧
    posMultiple [0, 1, 1] [0, 2, 2] ∧
    ([0, 1, 1] : List ℤ) ≠ [0, 2, 2] := by
  refine ⟨rfl, ⟨2, by decide, by decide⟩, by decide⟩

/-- Claim C8 (amended): `isl_basic_map_convex_hull` first applies Gaussian
elimination to its input; when the eliminated basic map is flagged EMPTY or
NO_REDUNDANT, or has at most one inequality, that eliminated map is returned
with no further modification (the tableau pipeline is never consulted). -/
theorem basic_map_convex_hull_fastpath (gauss tab : isl_basic_map → isl_basic_map)
    (bmap : isl_basic_map)
    (hfast : (gauss bmap).flagEmpty = true ∨ (gauss bmap).flagNoRedundant = true ∨
      (gauss bmap).ineqs.length ≤ 1) :
    isl_basic_map_convex_hull gauss tab bmap = gauss bmap := by
  unfold isl_basic_map_convex_hull
  rcases hfast with h | h | h
  · simp [h]
  · simp [h]
  · by_cases h1 : (gauss bmap).flagEmpty <;> by_cases h2 : (gauss bmap).flagNoRedundant <;>
      simp [h1, h2, h]

/-- Claim C8 witness: a concrete EMPTY-flagged basic map passes through the
fast path (with the identity in place of the external collaborators). -/
theorem basic_map_convex_hull_fastpath_witness :
    isl_basic_map_convex_hull id id ⟨[], [], true, false⟩ =
      id (⟨[], [], true, false⟩ : isl_basic_map) :=
  basic_map_convex_hull_fastpath id id ⟨[], [], true, false⟩ (by left; rfl)

/-- Claim C8 counterexample: a basic map flagged NO_REDUNDANT whose two
equality rows `x+y=0`, `x-y=0` are not in eliminated form is not returned
unchanged: the fast path returns the Gaussian-eliminated map, whose second
equality has become `-2y=0`. -/
theorem basic_map_convex_hull_fastpath_cex :
    (⟨[[0, 1, 1], [0, 1, -1]], [], false, true⟩ : isl_basic_map).flagNoRedundant
        = true ∧
    isl_basic_map_convex_hull isl_basic_map_gauss_model id
        ⟨[[0, 1, 1], [0, 1, -1]], [], false, true⟩ ≠
      ⟨[[0, 1, 1], [0, 1, -1]], [], false, true⟩ ∧
    isl_basic_map_convex_hull isl_basic_map_gauss_model id
        ⟨[[0, 1, 1], [0, 1, -1]], [], false, true⟩ =
      isl_basic_map_gauss_model ⟨[[0, 1, 1], [0, 1, -1]], [], false, true⟩ := by
  refine ⟨rfl, by decide, by decide⟩

theorem affF_eq_getD (r : List ℤ) (x : ℕ → ℚ) :
    affF r x = (r.getD 0 0 : ℚ) + dotF r.tail x := by
  cases r <;> simp [affF, dotF]

/-- Claim C4 (amended): `isl_basic_map_constraint_is_redundant` returns 1
only when the basic map is contained in `{c ≥ 0}` (under the LP contract for
the minimization of `c[1..] . x`), and whenever some variable with a nonzero
coefficient of `c` has no same-sign inequality the function returns 0
without consulting the LP; but 1 is not returned for every contained case
(the sign filter and the empty outcome return 0 even when containment
holds through equalities or emptiness). -/
theorem constraint_is_redundant_sound (total : ℕ) (eqs ineqs : List (List ℤ))
    (c : List ℤ) (res : LpResult)
    (Hok : ∀ num den, res = .ok num den → 0 < den ∧
      ∀ x ∈ bsetSem ⟨eqs, ineqs⟩, (num : ℚ) ≤ den * dotF c.tail x) :
    (isl_basic_map_constraint_is_redundant total ineqs c res = some true →
      ∀ x ∈ bsetSem ⟨eqs, ineqs⟩, 0 ≤ affF c x) ∧
    (signFilterHit total ineqs c = true →
      ∀ res1, isl_basic_map_constraint_is_redundant total ineqs c res1 =
        some false) := by
  constructor
  · intro hres x hx
    unfold isl_basic_map_constraint_is_redundant at hres
    by_cases hf : signFilterHit total ineqs c = true
    · rw [if_pos hf] at hres; exact absurd hres (by simp)
    · rw [if_neg hf] at hres
      cases res with
      | unbounded => exact absurd hres (by simp)
      | error => exact absurd hres (by simp)
      | empty => exact absurd hres (by simp)
      | ok num den =>
        simp only [Option.some.injEq, decide_eq_true_eq] at hres
        obtain ⟨hden, hlb⟩ := Hok num den rfl
        have h1 := hlb x hx
        rw [affF_eq_getD]
        have hden1 : (0 : ℚ) < den := by exact_mod_cast hden
        have h0 : (0 : ℚ) ≤ num + den * c.getD 0 0 := by exact_mod_cast hres
        nlinarith [h1, h0, hden1]
  · intro hf res1
    unfold isl_basic_map_constraint_is_redundant
    rw [if_pos hf]

/-- Claim C4 witness: on the unconstrained 0-dimensional basic map and the
constraint `5 ≥ 0` with true LP minimum `0/1`, the function returns 1 and
the constraint indeed holds on the set. -/
theorem constraint_is_redundant_sound_witness :
    isl_basic_map_constraint_is_redundant 0 [] [5] (.ok 0 1) = some true ∧
    ∀ x ∈ bsetSem ⟨[], []⟩, 0 ≤ affF [5] x := by
  refine ⟨by decide, ?_⟩
  refine (constraint_is_redundant_sound 0 [] [] [5] (.ok 0 1) ?_).1 (by decide)
  intro num den h
  injection h with h1 h2
  subst h1; subst h2
  exact ⟨by decide, fun x _ => by simp [dotF]⟩

/-- Claim C4 counterexample: on the basic map `{x = 0}` with no inequalities
and the constraint `c = x ≥ 0`, the sign filter fires (no inequality has a
positive coefficient in `x`) and 0 is returned, although the basic map is
contained in `{c ≥ 0}`; the supplied LP outcome `0/1` is the true minimum
of `x` over the set (last conjuncts), so the claimed equivalence with
containment fails. -/
theorem constraint_is_redundant_claim_cex :
    isl_basic_map_constraint_is_redundant 1 [] [0, 1] (.ok 0 1) = some false ∧
    (∀ x ∈ bsetSem ⟨[[0, 1]], []⟩, 0 ≤ affF [0, 1] x) ∧
    (∀ x ∈ bsetSem ⟨[[0, 1]], []⟩, (0 : ℚ) ≤ 1 * dotF [1] x) ∧
    (∃ x ∈ bsetSem ⟨[[0, 1]], []⟩, dotF [1] x = 0) := by
  refine ⟨by decide, ?_, ?_, ?_⟩
  · intro x hx
    have he := hx.1 [0, 1] (by simp)
    rw [he]
  · intro x hx
    have he := hx.1 [0, 1] (by simp)
    simp only [affF, dotF] at he ⊢
    push_cast at he ⊢
    linarith
  · refine ⟨fun _ => 0, ?_, by simp [dotF]⟩
    constructor
    · intro e he
      simp only [List.mem_singleton] at he
      subst he
      simp [affF, dotF]
    · intro r hr
      simp at hr

theorem stepEqLower_sign (lo : Option (ℤ × ℤ)) (e l1 : ℤ × ℤ)
    (hres : stepEqLower lo e = some l1) (hinv : ∀ l, lo = some l → 0 ≤ l.2) :
    0 ≤ l1.2 := by
  cases lo with
  | none => exact absurd hres (by simp [stepEqLower])
  | some l =>
    simp only [stepEqLower] at hres
    split at hres
    · cases hres; omega
    · split at hres
      · cases hres; simp only [negRow]; omega
      · cases hres; exact hinv _ rfl

theorem stepEqUpper_sign (up : Option (ℤ × ℤ)) (e u1 : ℤ × ℤ)
    (hres : stepEqUpper up e = some u1) (hinv : ∀ u, up = some u → u.2 ≤ 0) :
    u1.2 ≤ 0 := by
  cases up with
  | none => exact absurd hres (by simp [stepEqUpper])
  | some u =>
    simp only [stepEqUpper] at hres
    split at hres
    · cases hres; simp only [negRow]; omega
    · split at hres
      · cases hres; omega
      · cases hres; exact hinv _ rfl

theorem stepIneqLower_sign (lo : Option (ℤ × ℤ)) (r l1 : ℤ × ℤ)
    (hres : stepIneqLower lo r = some l1) (hinv : ∀ l, lo = some l → 0 ≤ l.2) :
    0 ≤ l1.2 := by
  cases lo with
  | none => exact absurd hres (by simp [stepIneqLower])
  | some l =>
    simp only [stepIneqLower] at hres
    split at hres
    · cases hres; omega
    · cases hres; exact hinv _ rfl

theorem stepIneqUpper_sign (up : Option (ℤ × ℤ)) (r u1 : ℤ × ℤ)
    (hres : stepIneqUpper up r = some u1) (hinv : ∀ u, up = some u → u.2 ≤ 0) :
    u1.2 ≤ 0 := by
  cases up with
  | none => exact absurd hres (by simp [stepIneqUpper])
  | some u =>
    simp only [stepIneqUpper] at hres
    split at hres
    · cases hres; omega
    · cases hres; exact hinv _ rfl

theorem foldEq_sign (eqs : List (ℤ × ℤ)) (lu : Option (ℤ × ℤ) × Option (ℤ × ℤ))
    (h1 : ∀ l, lu.1 = some l → 0 ≤ l.2) (h2 : ∀ u, lu.2 = some u → u.2 ≤ 0) :
    (∀ l, (eqs.foldl (fun p e => (stepEqLower p.1 e, stepEqUpper p.2 e)) lu).1 =
        some l → 0 ≤ l.2) ∧
    (∀ u, (eqs.foldl (fun p e => (stepEqLower p.1 e, stepEqUpper p.2 e)) lu).2 =
        some u → u.2 ≤ 0) := by
  induction eqs generalizing lu with
  | nil => exact ⟨h1, h2⟩
  | cons e rest ih =>
    simp only [List.foldl_cons]
    exact ih (stepEqLower lu.1 e, stepEqUpper lu.2 e)
      (fun l hl => stepEqLower_sign lu.1 e l hl h1)
      (fun u hu => stepEqUpper_sign lu.2 e u hu h2)

theorem foldIneq_sign (rs : List (ℤ × ℤ)) (lu : Option (ℤ × ℤ) × Option (ℤ × ℤ))
    (h1 : ∀ l, lu.1 = some l → 0 ≤ l.2) (h2 : ∀ u, lu.2 = some u → u.2 ≤ 0) :
    (∀ l, (rs.foldl (fun p r => (stepIneqLower p.1 r, stepIneqUpper p.2 r)) lu).1 =
        some l → 0 ≤ l.2) ∧
    (∀ u, (rs.foldl (fun p r => (stepIneqLower p.1 r, stepIneqUpper p.2 r)) lu).2 =
        some u → u.2 ≤ 0) := by
  induction rs generalizing lu with
  | nil => exact ⟨h1, h2⟩
  | cons r rest ih =>
    simp only [List.foldl_cons]
    exact ih (stepIneqLower lu.1 r, stepIneqUpper lu.2 r)
      (fun l hl => stepIneqLower_sign lu.1 r l hl h1)
      (fun u hu => stepIneqUpper_sign lu.2 r u hu h2)

theorem stepMember_fst (lu : Option (ℤ × ℤ) × Option (ℤ × ℤ)) (bs : BSet1) :
    (stepMember lu bs).1 =
      if !bs.eqs.isEmpty || bs.ineqs.any (fun r => decide (0 < r.2)) then
        (bs.ineqs.foldl (fun p r => (stepIneqLower p.1 r, stepIneqUpper p.2 r))
          (bs.eqs.foldl (fun p e => (stepEqLower p.1 e, stepEqUpper p.2 e)) lu)).1
      else none := rfl

theorem stepMember_snd (lu : Option (ℤ × ℤ) × Option (ℤ × ℤ)) (bs : BSet1) :
    (stepMember lu bs).2 =
      if !bs.eqs.isEmpty || bs.ineqs.any (fun r => decide (r.2 < 0)) then
        (bs.ineqs.foldl (fun p r => (stepIneqLower p.1 r, stepIneqUpper p.2 r))
          (bs.eqs.foldl (fun p e => (stepEqLower p.1 e, stepEqUpper p.2 e)) lu)).2
      else none := rfl

theorem stepMember_sign (lu : Option (ℤ × ℤ) × Option (ℤ × ℤ)) (bs : BSet1)
    (h1 : ∀ l, lu.1 = some l → 0 ≤ l.2) (h2 : ∀ u, lu.2 = some u → u.2 ≤ 0) :
    (∀ l, (stepMember lu bs).1 = some l → 0 ≤ l.2) ∧
    (∀ u, (stepMember lu bs).2 = some u → u.2 ≤ 0) := by
  obtain ⟨g1, g2⟩ := foldEq_sign bs.eqs lu h1 h2
  obtain ⟨k1, k2⟩ := foldIneq_sign bs.ineqs _ g1 g2
  constructor
  · intro l hl
    rw [stepMember_fst] at hl
    split at hl
    · exact k1 l hl
    · exact absurd hl (by simp)
  · intro u hu
    rw [stepMember_snd] at hu
    split at hu
    · exact k2 u hu
    · exact absurd hu (by simp)

theorem seedFold_sign (rs : List (ℤ × ℤ))
    (init : Option (ℤ × ℤ) × Option (ℤ × ℤ))
    (h1 : ∀ l, init.1 = some l → 0 ≤ l.2)
    (h2 : ∀ u, init.2 = some u → u.2 ≤ 0) :
    (∀ l, (rs.foldl
        (fun lu r => if 0 < r.2 then (some r, lu.2) else (lu.1, some r))
        init).1 = some l → 0 ≤ l.2) ∧
    (∀ u, (rs.foldl
        (fun lu r => if 0 < r.2 then (some r, lu.2) else (lu.1, some r))
        init).2 = some u → u.2 ≤ 0) := by
  induction rs generalizing init with
  | nil => exact ⟨h1, h2⟩
  | cons r rest ih =>
    simp only [List.foldl_cons]
    by_cases hr : 0 < r.2
    · rw [if_pos hr]
      exact ih _ (fun l hl => by cases hl; omega) h2
    · rw [if_neg hr]
      exact ih _ h1 (fun u hu => by cases hu; omega)

theorem seed1d_sign (b : BSet1) :
    (∀ l, (seed1d b).1 = some l → 0 ≤ l.2) ∧
    (∀ u, (seed1d b).2 = some u → u.2 ≤ 0) := by
  obtain ⟨eqs, ineqs⟩ := b
  cases eqs with
  | cons e rest =>
    simp only [seed1d]
    by_cases he : 0 < e.2
    · rw [if_pos he]
      exact ⟨fun l hl => by cases hl; omega,
        fun u hu => by cases hu; simp only [negRow]; omega⟩
    · rw [if_neg he]
      exact ⟨fun l hl => by cases hl; simp only [negRow]; omega,
        fun u hu => by cases hu; omega⟩
  | nil =>
    simp only [seed1d]
    exact seedFold_sign ineqs (none, none) (by simp) (by simp)

theorem foldMember_sign (sets : List BSet1)
    (lu : Option (ℤ × ℤ) × Option (ℤ × ℤ))
    (h1 : ∀ l, lu.1 = some l → 0 ≤ l.2) (h2 : ∀ u, lu.2 = some u → u.2 ≤ 0) :
    (∀ l, (sets.foldl stepMember lu).1 = some l → 0 ≤ l.2) ∧
    (∀ u, (sets.foldl stepMember lu).2 = some u → u.2 ≤ 0) := by
  induction sets generalizing lu with
  | nil => exact ⟨h1, h2⟩
  | cons bs rest ih =>
    simp only [List.foldl_cons]
    obtain ⟨g1, g2⟩ := stepMember_sign lu bs h1 h2
    exact ih _ g1 g2

/-- Claim C3 (amended): in the 1-D hull, the running lower and upper bounds
are replaced by the least restrictive of the running and candidate bound
(`min` of the bound values for lower bounds, `max` for upper bounds — so the
running bound stays valid for every member seen), with comparisons by exact
cross-multiplication; a member providing no lower (resp. upper) bound erases
the running lower (resp. upper) bound, and an erased bound yields a hull
with no inequality in that direction. -/
theorem convex_hull_1d_bounds :
    (∀ l r : ℤ × ℤ, 0 < l.2 → 0 < r.2 →
      stepIneqLower (some l) r =
        some (if boundVal r < boundVal l then r else l)) ∧
    (∀ u r : ℤ × ℤ, u.2 < 0 → r.2 < 0 →
      stepIneqUpper (some u) r =
        some (if boundVal u < boundVal r then r else u)) ∧
    (∀ lu bs, bs.eqs = [] → (∀ r ∈ bs.ineqs, ¬ 0 < r.2) →
      (stepMember lu bs).1 = none) ∧
    (∀ lu bs, bs.eqs = [] → (∀ r ∈ bs.ineqs, ¬ r.2 < 0) →
      (stepMember lu bs).2 = none) ∧
    (∀ s0 rest rows, convex_hull_1d (s0 :: rest) = some rows →
      (((s0 :: rest).foldl stepMember (seed1d s0)).1 = none →
        ∀ r ∈ rows, ¬ 0 < r.2) ∧
      (((s0 :: rest).foldl stepMember (seed1d s0)).2 = none →
        ∀ r ∈ rows, ¬ r.2 < 0)) := by
  refine ⟨?_, ?_, ?_, ?_, ?_⟩
  · intro l r hl hr
    have hlq : (0 : ℚ) < l.2 := by exact_mod_cast hl
    have hrq : (0 : ℚ) < r.2 := by exact_mod_cast hr
    have hiff : l.1 * r.2 < l.2 * r.1 ↔ boundVal r < boundVal l := by
      unfold boundVal
      rw [div_lt_div_iff₀ hrq hlq]
      constructor
      · intro h
        have hq : (l.1 : ℚ) * r.2 < (l.2 : ℚ) * r.1 := by exact_mod_cast h
        nlinarith [hq]
      · intro h
        have hq : (l.1 : ℚ) * r.2 < (l.2 : ℚ) * r.1 := by nlinarith [h]
        exact_mod_cast hq
    by_cases hc : boundVal r < boundVal l
    · rw [if_pos hc]
      simp only [stepIneqLower]
      rw [if_pos ⟨hr, hiff.mpr hc⟩]
    · rw [if_neg hc]
      simp only [stepIneqLower]
      rw [if_neg (fun hcon => hc (hiff.mp hcon.2))]
  · intro u r hu hr
    have huq : (0 : ℚ) < -(u.2 : ℚ) := by
      have : (u.2 : ℚ) < 0 := by exact_mod_cast hu
      linarith
    have hrq : (0 : ℚ) < -(r.2 : ℚ) := by
      have : (r.2 : ℚ) < 0 := by exact_mod_cast hr
      linarith
    have e1 : boundVal u = (u.1 : ℚ) / -(u.2 : ℚ) := by
      unfold boundVal; rw [div_neg, neg_div]
    have e2 : boundVal r = (r.1 : ℚ) / -(r.2 : ℚ) := by
      unfold boundVal; rw [div_neg, neg_div]
    have hiff : u.2 * r.1 < u.1 * r.2 ↔ boundVal u < boundVal r := by
      rw [e1, e2, div_lt_div_iff₀ huq hrq]
      constructor
      · intro h
        have hq : (u.2 : ℚ) * r.1 < (u.1 : ℚ) * r.2 := by exact_mod_cast h
        nlinarith [hq]
      · intro h
        have hq : (u.2 : ℚ) * r.1 < (u.1 : ℚ) * r.2 := by nlinarith [h]
        exact_mod_cast hq
    by_cases hc : boundVal u < boundVal r
    · rw [if_pos hc]
      simp only [stepIneqUpper]
      rw [if_pos ⟨hr, hiff.mpr hc⟩]
    · rw [if_neg hc]
      simp only [stepIneqUpper]
      rw [if_neg (fun hcon => hc (hiff.mp hcon.2))]
  · intro lu bs he hno
    rw [stepMember_fst]
    have hcond : (!bs.eqs.isEmpty || bs.ineqs.any (fun r => decide (0 < r.2)))
        = false := by
      rw [he]
      simp only [List.isEmpty_nil, Bool.not_true, Bool.false_or,
        List.any_eq_false, decide_eq_true_eq]
      exact hno
    simp [hcond]
  · intro lu bs he hno
    rw [stepMember_snd]
    have hcond : (!bs.eqs.isEmpty || bs.ineqs.any (fun r => decide (r.2 < 0)))
        = false := by
      rw [he]
      simp only [List.isEmpty_nil, Bool.not_true, Bool.false_or,
        List.any_eq_false, decide_eq_true_eq]
      exact hno
    simp [hcond]
  · intro s0 rest rows hres
    simp only [convex_hull_1d] at hres
    split at hres
    · exact absurd hres (by simp)
    · simp only [Option.some.injEq] at hres
      subst hres
      obtain ⟨sg1, sg2⟩ := foldMember_sign (s0 :: rest) (seed1d s0)
        (seed1d_sign s0).1 (seed1d_sign s0).2
      constructor
      · intro hnone r hr
        cases hu : ((s0 :: rest).foldl stepMember (seed1d s0)).2 with
        | none => rw [hnone, hu] at hr; simp at hr
        | some u =>
          rw [hnone, hu] at hr
          simp only [Option.toList_none, Option.toList_some, List.nil_append,
            List.mem_singleton] at hr
          subst hr
          have := sg2 r hu
          omega
      · intro hnone r hr
        cases hl : ((s0 :: rest).foldl stepMember (seed1d s0)).1 with
        | none => rw [hnone, hl] at hr; simp at hr
        | some l =>
          rw [hnone, hl] at hr
          simp only [Option.toList_none, Option.toList_some, List.append_nil,
            List.mem_singleton] at hr
          subst hr
          have := sg1 r hl
          omega

/-- Claim C3 witness: with running lower bound `x ≥ 1` (row `(-1,1)`) and
candidate lower bound `x ≥ 2` (row `(-2,1)`), the update keeps the less
restrictive `(-1,1)`. -/
theorem convex_hull_1d_bounds_witness :
    stepIneqLower (some (-1, 1)) (-2, 1) = some (-1, 1) := by
  have h := convex_hull_1d_bounds.1 (-1, 1) (-2, 1) (by norm_num) (by norm_num)
  rw [h]
  norm_num [boundVal]

/-- Claim C3 counterexample: on the union `{1 ≤ x ≤ 3} ∪ {2 ≤ x ≤ 5}` the
code keeps lower bound `x ≥ 1` — the least restrictive — whereas the most
restrictive of the two member lower bounds (the claim's words, second
conjunct) is `x ≥ 2`, a different row with a strictly larger bound value. -/
theorem convex_hull_1d_claim_cex :
    convex_hull_1d [⟨[], [(-1, 1), (3, -1)]⟩, ⟨[], [(-2, 1), (5, -1)]⟩] =
      some [(-1, 1), (5, -1)] ∧
    specTightenLower (-1, 1) (-2, 1) = (-2, 1) ∧
    ((-1, 1) : ℤ × ℤ) ≠ (-2, 1) ∧
    boundVal (-1, 1) < boundVal (-2, 1) := by
  refine ⟨by decide, ?_, by decide, by norm_num [boundVal]⟩
  norm_num [specTightenLower, boundVal]

theorem map_one_mul (t : List ℤ) : t.map (fun a => 1 * a) = t := by
  simp

theorem usetLoop_main (lp : ℕ → List ℤ → LpResult) (S : ℕ → Set (ℕ → ℚ))
    (Hok : ∀ j b num den, lp j b = .ok num den → 0 < den ∧
      ∀ x ∈ S j, (num : ℚ) ≤ den * dotF b x)
    (Hemp : ∀ j b, lp j b = .empty → S j = ∅) :
    ∀ (k j : ℕ) (flags : ℕ → Bool) (h : ℤ) (t : List ℤ) (first b1 : Bool)
      (h1 : ℤ) (t1 : List ℤ) (flags1 : ℕ → Bool),
      (∀ i, flags i = true → S i = ∅) →
      (first = false → ∀ i, i < j → ∀ x ∈ S i, (h : ℚ) ≤ dotF t x) →
      (first = true → ∀ i, i < j → S i = ∅) →
      usetLoop lp k j flags h t first = some (b1, h1, t1, flags1) →
      ((∀ i, flags1 i = true → flags i = true ∨ S i = ∅) ∧
       (∀ i, flags i = true → flags1 i = true) ∧
       (b1 = true →
         (∃ m : ℤ, 0 < m ∧ t1 = t.map (fun a => m * a)) ∧
         (∀ i, i < j + k → ∀ x ∈ S i, 0 ≤ (h1 : ℚ) + dotF t1 x))) := by
  intro k
  induction k with
  | zero =>
    intro j flags h t first b1 h1 t1 flags1 hfl hpre hfirst hres
    simp only [usetLoop, Option.some.injEq, Prod.mk.injEq] at hres
    obtain ⟨hb, hh, ht, hflg⟩ := hres
    subst hb; subst hh; subst ht; subst hflg
    refine ⟨fun i hi => Or.inl hi, fun i hi => hi,
      fun _ => ⟨⟨1, one_pos, (map_one_mul t).symm⟩, ?_⟩⟩
    intro i hin x hx
    cases first with
    | true =>
      rw [hfirst rfl i (by omega)] at hx
      exact absurd hx (Set.not_mem_empty x)
    | false =>
      have := hpre rfl i (by omega) x hx
      push_cast
      linarith
  | succ k ih =>
    intro j flags h t first b1 h1 t1 flags1 hfl hpre hfirst hres
    simp only [usetLoop] at hres
    by_cases hfj : flags j = true
    · rw [hfj] at hres
      simp only [if_true] at hres
      have hSj : S j = ∅ := hfl j hfj
      have hrec := ih (j + 1) flags h t first b1 h1 t1 flags1 hfl
        (fun hf i hij x hx => by
          rcases Nat.lt_succ_iff_lt_or_eq.mp hij with hlt | heq
          · exact hpre hf i hlt x hx
          · subst heq; rw [hSj] at hx; exact absurd hx (Set.not_mem_empty x))
        (fun hf i hij => by
          rcases Nat.lt_succ_iff_lt_or_eq.mp hij with hlt | heq
          · exact hfirst hf i hlt
          · subst heq; exact hSj)
        hres
      obtain ⟨r1, r2, r3⟩ := hrec
      refine ⟨r1, r2, fun hb => ?_⟩
      obtain ⟨rs, rv⟩ := r3 hb
      exact ⟨rs, fun i hin x hx => rv i (by omega) x hx⟩
    · rw [Bool.not_eq_true] at hfj
      rw [hfj] at hres
      simp only [Bool.false_eq_true, if_false] at hres
      cases hlp : lp j t with
      | unbounded =>
        rw [hlp] at hres
        simp only [Option.some.injEq, Prod.mk.injEq] at hres
        obtain ⟨hb, hh, ht, hflg⟩ := hres
        subst hb; subst hh; subst ht; subst hflg
        exact ⟨fun i hi => Or.inl hi, fun i hi => hi,
          fun hcon => absurd hcon (by simp)⟩
      | error => rw [hlp] at hres; exact absurd hres (by simp)
      | empty =>
        rw [hlp] at hres
        have hSj : S j = ∅ := Hemp j t hlp
        have hrec := ih (j + 1) (fun i => if i = j then true else flags i) h t
          first b1 h1 t1 flags1
          (fun i hi => by
            simp only [] at hi
            by_cases hij : i = j
            · subst hij; exact hSj
            · rw [if_neg hij] at hi; exact hfl i hi)
          (fun hf i hij x hx => by
            rcases Nat.lt_succ_iff_lt_or_eq.mp hij with hlt | heq
            · exact hpre hf i hlt x hx
            · subst heq; rw [hSj] at hx; exact absurd hx (Set.not_mem_empty x))
          (fun hf i hij => by
            rcases Nat.lt_succ_iff_lt_or_eq.mp hij with hlt | heq
            · exact hfirst hf i hlt
            · subst heq; exact hSj)
          hres
        obtain ⟨r1, r2, r3⟩ := hrec
        refine ⟨?_, ?_, fun hb => ?_⟩
        · intro i hi
          rcases r1 i hi with hcase | hcase
          · simp only [] at hcase
            by_cases hij : i = j
            · exact Or.inr (hij ▸ hSj)
            · rw [if_neg hij] at hcase; exact Or.inl hcase
          · exact Or.inr hcase
        · intro i hi
          refine r2 i ?_
          show (if i = j then true else flags i) = true
          by_cases hij : i = j
          · rw [if_pos hij]
          · rw [if_neg hij]; exact hi
        · obtain ⟨rs, rv⟩ := r3 hb
          exact ⟨rs, fun i hin x hx => rv i (by omega) x hx⟩
      | ok num den =>
        rw [hlp] at hres
        dsimp only at hres
        obtain ⟨hden, hbound⟩ := Hok j t num den hlp
        have hdenq : (0 : ℚ) < (den : ℚ) := by exact_mod_cast hden
        have hts_dot : ∀ x : ℕ → ℚ,
            dotF (if den = 1 then t else t.map (fun a => den * a)) x =
              (den : ℚ) * dotF t x := by
          intro x
          by_cases hden1 : den = 1
          · rw [if_pos hden1, hden1]; push_cast; ring
          · rw [if_neg hden1, dotF_map_mul]
        have hsc_eq : (((if den = 1 then h else den * h) : ℤ) : ℚ) =
            (den : ℚ) * (h : ℚ) := by
          by_cases hden1 : den = 1
          · rw [if_pos hden1, hden1]; push_cast; ring
          · rw [if_neg hden1]; push_cast; ring
        have hrec := ih (j + 1) flags
          (if (first || decide (num < if den = 1 then h else den * h)) = true
            then num else if den = 1 then h else den * h)
          (if den = 1 then t else t.map (fun a => den * a)) false
          b1 h1 t1 flags1 hfl
          (fun _ i hij x hx => by
            rcases Nat.lt_succ_iff_lt_or_eq.mp hij with hlt | heq
            · cases hfq : first with
              | true =>
                rw [hfirst hfq i hlt] at hx
                exact absurd hx (Set.not_mem_empty x)
              | false =>
                have hle := hpre hfq i hlt x hx
                have hmul := mul_le_mul_of_nonneg_left hle (le_of_lt hdenq)
                rw [hts_dot]
                by_cases hnum : num < (if den = 1 then h else den * h)
                · rw [if_pos (show (false || decide
                      (num < if den = 1 then h else den * h)) = true by
                    simp [hnum])]
                  have hnq : ((num : ℤ) : ℚ) ≤
                      (((if den = 1 then h else den * h) : ℤ) : ℚ) := by
                    exact_mod_cast le_of_lt hnum
                  rw [hsc_eq] at hnq
                  linarith [hnq, hmul]
                · rw [if_neg (show ¬ ((false || decide
                      (num < if den = 1 then h else den * h)) = true) by
                    simp [hnum])]
                  rw [hsc_eq]
                  linarith [hmul]
            · subst heq
              have hb2 := hbound x hx
              rw [hts_dot]
              by_cases hcond :
                  (first || decide (num < if den = 1 then h else den * h))
                    = true
              · rw [if_pos hcond]
                exact hb2
              · rw [if_neg hcond]
                have hge : ¬ num < (if den = 1 then h else den * h) := by
                  intro hcon
                  exact hcond (by simp [hcon])
                have hsn : (((if den = 1 then h else den * h) : ℤ) : ℚ) ≤ num := by
                  exact_mod_cast not_lt.mp hge
                linarith [hb2, hsn])
          (fun hf => absurd hf (by simp))
          hres
        obtain ⟨r1, r2, r3⟩ := hrec
        refine ⟨r1, r2, fun hb => ?_⟩
        obtain ⟨⟨m, hm, hteq⟩, hvalid⟩ := r3 hb
        refine ⟨⟨m * den, by positivity, ?_⟩, fun i hin x hx =>
          hvalid i (by omega) x hx⟩
        rw [hteq]
        by_cases hden1 : den = 1
        · rw [if_pos hden1, hden1]
          simp [mul_one]
        · rw [if_neg hden1, List.map_map]
          have hfe : ((fun a => m * a) ∘ fun a => den * a) =
              (fun a : ℤ => m * den * a) := by
            funext a; simp [Function.comp]; ring
          rw [hfe]

theorem usetLoop_bdd (lp : ℕ → List ℤ → LpResult) (S : ℕ → Set (ℕ → ℚ))
    (Hok : ∀ j b num den, lp j b = .ok num den → 0 < den ∧
      ∀ x ∈ S j, (num : ℚ) ≤ den * dotF b x)
    (Hunb : ∀ j b, lp j b = .unbounded → ∀ M : ℚ, ∃ x ∈ S j, dotF b x < M)
    (Hemp : ∀ j b, lp j b = .empty → S j = ∅) :
    ∀ (k j : ℕ) (flags : ℕ → Bool) (h : ℤ) (t : List ℤ) (first b1 : Bool)
      (h1 : ℤ) (t1 : List ℤ) (flags1 : ℕ → Bool),
      (∀ i, flags i = true → S i = ∅) →
      usetLoop lp k j flags h t first = some (b1, h1, t1, flags1) →
      (b1 = true ↔
        ∀ i, j ≤ i → i < j + k → ∃ M : ℚ, ∀ x ∈ S i, M ≤ dotF t x) := by
  intro k
  induction k with
  | zero =>
    intro j flags h t first b1 h1 t1 flags1 hfl hres
    simp only [usetLoop, Option.some.injEq, Prod.mk.injEq] at hres
    obtain ⟨hb, hh, ht, hflg⟩ := hres
    subst hb
    exact iff_of_true rfl (fun i hji hin => absurd hin (by omega))
  | succ k ih =>
    intro j flags h t first b1 h1 t1 flags1 hfl hres
    simp only [usetLoop] at hres
    by_cases hfj : flags j = true
    · rw [hfj] at hres
      simp only [if_true] at hres
      have hSj : S j = ∅ := hfl j hfj
      have hrec := ih (j + 1) flags h t first b1 h1 t1 flags1 hfl hres
      rw [hrec]
      constructor
      · intro hA i hji hin
        rcases Nat.lt_or_ge i (j + 1) with hcase | hcase
        · have : i = j := by omega
          subst this
          exact ⟨0, fun x hx => absurd (hSj ▸ hx) (Set.not_mem_empty x)⟩
        · exact hA i hcase (by omega)
      · intro hB i hji hin
        exact hB i (by omega) (by omega)
    · rw [Bool.not_eq_true] at hfj
      rw [hfj] at hres
      simp only [Bool.false_eq_true, if_false] at hres
      cases hlp : lp j t with
      | unbounded =>
        rw [hlp] at hres
        simp only [Option.some.injEq, Prod.mk.injEq] at hres
        obtain ⟨hb, hh, ht, hflg⟩ := hres
        subst hb
        refine iff_of_false (by simp) ?_
        intro hB
        obtain ⟨M, hM⟩ := hB j le_rfl (by omega)
        obtain ⟨x, hx, hlt⟩ := Hunb j t hlp M
        exact absurd (hM x hx) (not_le.mpr hlt)
      | error => rw [hlp] at hres; exact absurd hres (by simp)
      | empty =>
        rw [hlp] at hres
        have hSj : S j = ∅ := Hemp j t hlp
        have hrec := ih (j + 1) (fun i => if i = j then true else flags i) h t
          first b1 h1 t1 flags1
          (fun i hi => by
            simp only [] at hi
            by_cases hij : i = j
            · subst hij; exact hSj
            · rw [if_neg hij] at hi; exact hfl i hi)
          hres
        rw [hrec]
        constructor
        · intro hA i hji hin
          rcases Nat.lt_or_ge i (j + 1) with hcase | hcase
          · have : i = j := by omega
            subst this
            exact ⟨0, fun x hx => absurd (hSj ▸ hx) (Set.not_mem_empty x)⟩
          · exact hA i hcase (by omega)
        · intro hB i hji hin
          exact hB i (by omega) (by omega)
      | ok num den =>
        rw [hlp] at hres
        dsimp only at hres
        obtain ⟨hden, hbound⟩ := Hok j t num den hlp
        have hdenq : (0 : ℚ) < (den : ℚ) := by exact_mod_cast hden
        have hts_dot : ∀ x : ℕ → ℚ,
            dotF (if den = 1 then t else t.map (fun a => den * a)) x =
              (den : ℚ) * dotF t x := by
          intro x
          by_cases hden1 : den = 1
          · rw [if_pos hden1, hden1]; push_cast; ring
          · rw [if_neg hden1, dotF_map_mul]
        have hrec := ih (j + 1) flags
          (if (first || decide (num < if den = 1 then h else den * h)) = true
            then num else if den = 1 then h else den * h)
          (if den = 1 then t else t.map (fun a => den * a)) false
          b1 h1 t1 flags1 hfl hres
        rw [hrec]
        constructor
        · intro hA i hji hin
          rcases Nat.lt_or_ge i (j + 1) with hcase | hcase
          · have : i = j := by omega
            subst this
            refine ⟨(num : ℚ) / (den : ℚ), fun x hx => ?_⟩
            rw [div_le_iff₀ hdenq]
            have := hbound x hx
            linarith [this]
          · obtain ⟨M, hM⟩ := hA i hcase (by omega)
            refine ⟨M / (den : ℚ), fun x hx => ?_⟩
            rw [div_le_iff₀ hdenq]
            have := hM x hx
            rw [hts_dot] at this
            linarith [this]
        · intro hB i hji hin
          obtain ⟨M, hM⟩ := hB i (by omega) (by omega)
          refine ⟨(den : ℚ) * M, fun x hx => ?_⟩
          rw [hts_dot]
          exact mul_le_mul_of_nonneg_left (hM x hx) (le_of_lt hdenq)

theorem usetLoop_tight (lp : ℕ → List ℤ → LpResult) (S : ℕ → Set (ℕ → ℚ))
    (Hok : ∀ j b num den, lp j b = .ok num den → 0 < den ∧
      ∃ x ∈ S j, (num : ℚ) = den * dotF b x)
    (Hemp : ∀ j b, lp j b = .empty → S j = ∅) :
    ∀ (k j : ℕ) (flags : ℕ → Bool) (h : ℤ) (t : List ℤ) (first : Bool)
      (h1 : ℤ) (t1 : List ℤ) (flags1 : ℕ → Bool),
      (∀ i, flags i = true → S i = ∅) →
      (first = false → ∃ i, i < j ∧ ∃ x ∈ S i, (h : ℚ) = dotF t x) →
      (first = true → ∀ i, i < j → S i = ∅) →
      usetLoop lp k j flags h t first = some (true, h1, t1, flags1) →
      (∃ i, i < j + k ∧ (S i).Nonempty) →
      ∃ i, i < j + k ∧ ∃ x ∈ S i, (h1 : ℚ) + dotF t1 x = 0 := by
  intro k
  induction k with
  | zero =>
    intro j flags h t first h1 t1 flags1 hfl hpre hfirst hres hne
    simp only [usetLoop, Option.some.injEq, Prod.mk.injEq] at hres
    obtain ⟨_, hh, ht, hflg⟩ := hres
    subst hh; subst ht
    cases first with
    | true =>
      obtain ⟨i, hin, x, hx⟩ := hne
      rw [hfirst rfl i (by omega)] at hx
      exact absurd hx (Set.not_mem_empty x)
    | false =>
      obtain ⟨i, hij, x, hx, heq⟩ := hpre rfl
      refine ⟨i, by omega, x, hx, ?_⟩
      push_cast
      linarith
  | succ k ih =>
    intro j flags h t first h1 t1 flags1 hfl hpre hfirst hres hne
    simp only [usetLoop] at hres
    by_cases hfj : flags j = true
    · rw [hfj] at hres
      simp only [if_true] at hres
      have hSj : S j = ∅ := hfl j hfj
      have hne1 : ∃ i, i < (j + 1) + k ∧ (S i).Nonempty := by
        obtain ⟨i, hin, hx⟩ := hne
        exact ⟨i, by omega, hx⟩
      obtain ⟨i, hin, hw⟩ := ih (j + 1) flags h t first h1 t1 flags1 hfl
        (fun hf => by
          obtain ⟨i, hij, hw⟩ := hpre hf
          exact ⟨i, by omega, hw⟩)
        (fun hf i hij => by
          rcases Nat.lt_succ_iff_lt_or_eq.mp hij with hlt | heq
          · exact hfirst hf i hlt
          · subst heq; exact hSj)
        hres hne1
      exact ⟨i, by omega, hw⟩
    · rw [Bool.not_eq_true] at hfj
      rw [hfj] at hres
      simp only [Bool.false_eq_true, if_false] at hres
      cases hlp : lp j t with
      | unbounded =>
        rw [hlp] at hres
        simp only [Option.some.injEq, Prod.mk.injEq] at hres
        obtain ⟨hb, _, _, _⟩ := hres
        exact absurd hb.symm (by simp)
      | error => rw [hlp] at hres; exact absurd hres (by simp)
      | empty =>
        rw [hlp] at hres
        have hSj : S j = ∅ := Hemp j t hlp
        have hne1 : ∃ i, i < (j + 1) + k ∧ (S i).Nonempty := by
          obtain ⟨i, hin, hx⟩ := hne
          exact ⟨i, by omega, hx⟩
        obtain ⟨i, hin, hw⟩ := ih (j + 1)
          (fun i => if i = j then true else flags i) h t first h1 t1 flags1
          (fun i hi => by
            simp only [] at hi
            by_cases hij : i = j
            · subst hij; exact hSj
            · rw [if_neg hij] at hi; exact hfl i hi)
          (fun hf => by
            obtain ⟨i, hij, hw⟩ := hpre hf
            exact ⟨i, by omega, hw⟩)
          (fun hf i hij => by
            rcases Nat.lt_succ_iff_lt_or_eq.mp hij with hlt | heq
            · exact hfirst hf i hlt
            · subst heq; exact hSj)
          hres hne1
        exact ⟨i, by omega, hw⟩
      | ok num den =>
        rw [hlp] at hres
        dsimp only at hres
        obtain ⟨hden, x0, hx0, heq0⟩ := Hok j t num den hlp
        have hdenq : (0 : ℚ) < (den : ℚ) := by exact_mod_cast hden
        have hts_dot : ∀ x : ℕ → ℚ,
            dotF (if den = 1 then t else t.map (fun a => den * a)) x =
              (den : ℚ) * dotF t x := by
          intro x
          by_cases hden1 : den = 1
          · rw [if_pos hden1, hden1]; push_cast; ring
          · rw [if_neg hden1, dotF_map_mul]
        have hsc_eq : (((if den = 1 then h else den * h) : ℤ) : ℚ) =
            (den : ℚ) * (h : ℚ) := by
          by_cases hden1 : den = 1
          · rw [if_pos hden1, hden1]; push_cast; ring
          · rw [if_neg hden1]; push_cast; ring
        have hne1 : ∃ i, i < (j + 1) + k ∧ (S i).Nonempty := by
          obtain ⟨i, hin, hx⟩ := hne
          exact ⟨i, by omega, hx⟩
        obtain ⟨i, hin, hw⟩ := ih (j + 1) flags
          (if (first || decide (num < if den = 1 then h else den * h)) = true
            then num else if den = 1 then h else den * h)
          (if den = 1 then t else t.map (fun a => den * a)) false
          h1 t1 flags1 hfl
          (fun _ => by
            by_cases hcond :
                (first || decide (num < if den = 1 then h else den * h))
                  = true
            · rw [if_pos hcond]
              refine ⟨j, by omega, x0, hx0, ?_⟩
              rw [hts_dot]
              exact heq0
            · rw [if_neg hcond]
              have hff : first = false := by
                cases hfq : first with
                | true => exact absurd (by rw [hfq]; simp) hcond
                | false => rfl
              obtain ⟨i, hij, x, hx, heq⟩ := hpre hff
              refine ⟨i, by omega, x, hx, ?_⟩
              rw [hts_dot, hsc_eq, heq])
          (fun hf => absurd hf (by simp))
          hres hne1
        exact ⟨i, by omega, hw⟩

theorem dotF_zero_pt (b : List ℤ) : dotF b (fun _ => (0 : ℚ)) = 0 := by
  induction b with
  | nil => rfl
  | cons a t ih => simp [dotF, ih]

/-- Claim C5: `uset_is_bound` returns 1 exactly when the objective is
bounded below on every (non-empty) member of the set, returning 0 when some
member's LP is unbounded; members whose LP reports empty are marked empty
(and only those) and skipped; and on success the returned row consists of
the (possibly denominator-scaled) objective coefficients together with the
negated minimum as constant, making it a valid and tight bounding
constraint of the whole set.  The LP contract of spec section 4.1 is the
hypothesis `Hok`/`Hunb`/`Hemp`. -/
theorem uset_is_bound_correct (lp : ℕ → List ℤ → LpResult)
    (S : ℕ → Set (ℕ → ℚ)) (n : ℕ) (flags : ℕ → Bool) (h0 : ℤ) (t0 : List ℤ)
    (Hok : ∀ j b num den, lp j b = .ok num den → 0 < den ∧
      (∀ x ∈ S j, (num : ℚ) ≤ den * dotF b x) ∧
      (∃ x ∈ S j, (num : ℚ) = den * dotF b x))
    (Hunb : ∀ j b, lp j b = .unbounded → ∀ M : ℚ, ∃ x ∈ S j, dotF b x < M)
    (Hemp : ∀ j b, lp j b = .empty → S j = ∅)
    (Hflags : ∀ i, flags i = true → S i = ∅) :
    ∀ b1 h1 t1 flags1,
      uset_is_bound lp n flags h0 t0 = some (b1, h1, t1, flags1) →
      ((b1 = true ↔ ∀ i, i < n → ∃ M : ℚ, ∀ x ∈ S i, M ≤ dotF t0 x) ∧
       (b1 = true →
         (∃ m : ℤ, 0 < m ∧ t1 = t0.map (fun a => m * a)) ∧
         (∀ i, i < n → ∀ x ∈ S i, 0 ≤ (h1 : ℚ) + dotF t1 x) ∧
         ((∃ i, i < n ∧ (S i).Nonempty) →
           ∃ i, i < n ∧ ∃ x ∈ S i, (h1 : ℚ) + dotF t1 x = 0)) ∧
       (∀ i, flags1 i = true → flags i = true ∨ S i = ∅) ∧
       (∀ i, flags i = true → flags1 i = true)) := by
  intro b1 h1 t1 flags1 hres
  unfold uset_is_bound at hres
  have Hok1 : ∀ j b num den, lp j b = .ok num den → 0 < den ∧
      ∀ x ∈ S j, (num : ℚ) ≤ den * dotF b x :=
    fun j b num den hk => ⟨(Hok j b num den hk).1, (Hok j b num den hk).2.1⟩
  have Hok2 : ∀ j b num den, lp j b = .ok num den → 0 < den ∧
      ∃ x ∈ S j, (num : ℚ) = den * dotF b x :=
    fun j b num den hk => ⟨(Hok j b num den hk).1, (Hok j b num den hk).2.2⟩
  have hmain := usetLoop_main lp S Hok1 Hemp n 0 flags h0 t0 true b1 h1 t1
    flags1 Hflags (fun hf => absurd hf (by simp))
    (fun _ i hij => absurd hij (by omega)) hres
  have hbdd := usetLoop_bdd lp S Hok1 Hunb Hemp n 0 flags h0 t0 true b1 h1 t1
    flags1 Hflags hres
  obtain ⟨r1, r2, r3⟩ := hmain
  refine ⟨?_, ?_, r1, r2⟩
  · rw [hbdd]
    constructor
    · intro hA i hin
      exact hA i (by omega) (by omega)
    · intro hB i _ hin
      exact hB i (by omega)
  · intro hb
    subst hb
    obtain ⟨rs, rv⟩ := r3 rfl
    refine ⟨rs, fun i hin x hx => rv i (by omega) x hx, ?_⟩
    intro hne
    have hne0 : ∃ i, i < 0 + n ∧ (S i).Nonempty := by
      obtain ⟨i, hin, hw⟩ := hne
      exact ⟨i, by omega, hw⟩
    obtain ⟨i, hin, hw⟩ := usetLoop_tight lp S Hok2 Hemp n 0 flags h0 t0 true
      h1 t1 flags1 Hflags (fun hf => absurd hf (by simp))
      (fun _ i hij => absurd hij (by omega)) hres hne0
    exact ⟨i, by omega, hw⟩

/-- Claim C5 witness: one member, the origin set, objective `x_0` with true
minimum `0/1`; the run returns 1 and stores the valid tight row `0 + x_0`. -/
theorem uset_is_bound_correct_witness :
    uset_is_bound (fun _ _ => LpResult.ok 0 1) 1 (fun _ => false) 7 [1] =
      some (true, 0, [1], fun _ => false) ∧
    (∀ i, i < 1 → ∀ x ∈ (fun _ : ℕ => {y : ℕ → ℚ | y = fun _ => 0}) i,
      0 ≤ ((0 : ℤ) : ℚ) + dotF [1] x) := by
  have hrun : uset_is_bound (fun _ _ => LpResult.ok 0 1) 1 (fun _ => false) 7
      [1] = some (true, 0, [1], fun _ => false) := rfl
  refine ⟨hrun, ?_⟩
  have Hok : ∀ j b num den,
      (fun _ _ => LpResult.ok 0 1 : ℕ → List ℤ → LpResult) j b =
        .ok num den → 0 < den ∧
      (∀ x ∈ (fun _ : ℕ => {y : ℕ → ℚ | y = fun _ => 0}) j,
        (num : ℚ) ≤ den * dotF b x) ∧
      (∃ x ∈ (fun _ : ℕ => {y : ℕ → ℚ | y = fun _ => 0}) j,
        (num : ℚ) = den * dotF b x) := by
    intro j b num den hk
    have h1 : (0 : ℤ) = num := by injection hk
    have h2 : (1 : ℤ) = den := by injection hk
    subst h1; subst h2
    refine ⟨by norm_num, ?_, ⟨fun _ => 0, rfl, by rw [dotF_zero_pt]; norm_num⟩⟩
    intro x hx
    have hx0 : x = fun _ => 0 := hx
    subst hx0
    rw [dotF_zero_pt]
    norm_num
  have hth := uset_is_bound_correct (fun _ _ => LpResult.ok 0 1)
    (fun _ => {y : ℕ → ℚ | y = fun _ => 0}) 1 (fun _ => false) 7 [1] Hok
    (fun j b hk => absurd hk (by simp))
    (fun j b hk => absurd hk (by simp))
    (fun i hi => absurd hi (by simp))
    true 0 [1] (fun _ => false) hrun
  exact (hth.2.1 rfl).2.1

theorem candLoop_spec (lp : ℕ → List ℤ → LpResult) (S : ℕ → Set (ℕ → ℚ))
    (n : ℕ)
    (Hok : ∀ j b num den, lp j b = .ok num den → 0 < den ∧
      ∀ x ∈ S j, (num : ℚ) ≤ den * dotF b x)
    (Hemp : ∀ j b, lp j b = .empty → S j = ∅) :
    ∀ (rows : List (List ℤ)) (flags : ℕ → Bool) (acc cands : List (List ℤ))
      (flags1 : ℕ → Bool),
      (∀ i, flags i = true → S i = ∅) →
      candLoop lp n rows flags acc = some (cands, flags1) →
      ∀ r ∈ cands,
        r ∈ acc ∨
        ((∀ i, i < n → ∀ x ∈ S i, 0 ≤ affF r x) ∧
         ∃ src ∈ rows, ∃ m : ℤ, 0 < m ∧
           r.tail = src.tail.map (fun a => m * a)) := by
  intro rows
  induction rows with
  | nil =>
    intro flags acc cands flags1 hfl hres r hr
    simp only [candLoop, Option.some.injEq, Prod.mk.injEq] at hres
    exact Or.inl (hres.1 ▸ hr)
  | cons row rest ih =>
    intro flags acc cands flags1 hfl hres r hr
    simp only [candLoop] at hres
    cases hub : uset_is_bound lp n flags (row.headD 0) row.tail with
    | none => rw [hub] at hres; exact absurd hres (by simp)
    | some quad =>
      obtain ⟨b, h1, t1, flags2⟩ := quad
      rw [hub] at hres
      dsimp only at hres
      have hmain := usetLoop_main lp S Hok Hemp n 0 flags (row.headD 0)
        row.tail true b h1 t1 flags2 hfl (fun hf => absurd hf (by simp))
        (fun _ i hij => absurd hij (by omega)) hub
      obtain ⟨m1, _, m3⟩ := hmain
      have hfl2 : ∀ i, flags2 i = true → S i = ∅ := by
        intro i hi
        rcases m1 i hi with hcase | hcase
        · exact hfl i hcase
        · exact hcase
      have hrec := ih flags2 (if b = true then acc ++ [h1 :: t1] else acc)
        cands flags1 hfl2 hres r hr
      rcases hrec with hin | hgood
      · by_cases hb : b = true
        · rw [if_pos hb] at hin
          rcases List.mem_append.mp hin with hin2 | hin2
          · exact Or.inl hin2
          · have hreq : r = h1 :: t1 := by simpa using hin2
            subst hreq
            obtain ⟨⟨m, hm, hteq⟩, hval⟩ := m3 hb
            refine Or.inr ⟨?_, row, by simp, m, hm, by simpa using hteq⟩
            intro i hin3 x hx
            have := hval i (by omega) x hx
            simpa [affF] using this
        · rw [if_neg hb] at hin
          exact Or.inl hin
      · obtain ⟨hval, src, hsrc, hrest⟩ := hgood
        exact Or.inr ⟨hval, src, by simp [hsrc], hrest⟩

theorem unionSem_index (map : List isl_basic_set) (x : ℕ → ℚ)
    (hx : x ∈ unionSem map) : ∃ j, j < map.length ∧ x ∈ memSem map j := by
  obtain ⟨bs, hbs, hxb⟩ := hx
  obtain ⟨j, hj⟩ := List.mem_iff_get?.mp hbs
  have hlt : j < map.length := by
    rcases List.get?_eq_some.mp hj with ⟨hlt, _⟩
    exact hlt
  refine ⟨j, hlt, ?_⟩
  unfold memSem
  rw [hj]
  exact hxb

theorem map_mul_mul (a b : ℤ) (l : List ℤ) :
    (l.map (fun x => a * x)).map (fun x => b * x) =
      l.map (fun x => (b * a) * x) := by
  rw [List.map_map]
  have hfe : ((fun x => b * x) ∘ fun x => a * x) =
      (fun x : ℤ => (b * a) * x) := by
    funext x; simp [Function.comp]; ring
  rw [hfe]

theorem sameDirection_refl (r : List ℤ) : sameDirection r r :=
  ⟨1, 1, one_pos, one_pos, rfl⟩

theorem sameDirection_trans {r s t : List ℤ} (h1 : sameDirection r s)
    (h2 : sameDirection s t) : sameDirection r t := by
  obtain ⟨p, q, hp, hq, he1⟩ := h1
  obtain ⟨p1, q1, hp1, hq1, he2⟩ := h2
  refine ⟨p1 * p, q * q1, by positivity, by positivity, ?_⟩
  calc r.map (fun a => (p1 * p) * a)
      = (r.map (fun a => p * a)).map (fun a => p1 * a) := by
        rw [map_mul_mul]
    _ = (s.map (fun a => q * a)).map (fun a => p1 * a) := by rw [he1]
    _ = s.map (fun a => (p1 * q) * a) := by rw [map_mul_mul]
    _ = (s.map (fun a => p1 * a)).map (fun a => q * a) := by
        rw [map_mul_mul, mul_comm q p1]
    _ = (t.map (fun a => q1 * a)).map (fun a => q * a) := by rw [he2]
    _ = t.map (fun a => (q * q1) * a) := by rw [map_mul_mul]

theorem isl_basic_map_convex_hull_cases (gauss tab : isl_basic_map → isl_basic_map)
    (b : isl_basic_map) :
    isl_basic_map_convex_hull gauss tab b = gauss b ∨
    isl_basic_map_convex_hull gauss tab b = tab (gauss b) := by
  show (if (gauss b).flagEmpty then gauss b
    else if (gauss b).flagNoRedundant then gauss b
    else if (gauss b).ineqs.length ≤ 1 then gauss b
    else tab (gauss b)) = gauss b ∨
    (if (gauss b).flagEmpty then gauss b
    else if (gauss b).flagNoRedundant then gauss b
    else if (gauss b).ineqs.length ≤ 1 then gauss b
    else tab (gauss b)) = tab (gauss b)
  by_cases h1 : (gauss b).flagEmpty = true
  · left; rw [if_pos h1]
  · rw [if_neg h1]
    by_cases h2 : (gauss b).flagNoRedundant = true
    · left; rw [if_pos h2]
    · rw [if_neg h2]
      by_cases h3 : (gauss b).ineqs.length ≤ 1
      · left; rw [if_pos h3]
      · right; rw [if_neg h3]

theorem isl_basic_map_convex_hull_sem (gauss tab : isl_basic_map → isl_basic_map)
    (Hg : ∀ b, bmapSem (gauss b) = bmapSem b)
    (Ht : ∀ b, bmapSem (tab b) = bmapSem b) :
    ∀ b, bmapSem (isl_basic_map_convex_hull gauss tab b) = bmapSem b := by
  intro b
  rcases isl_basic_map_convex_hull_cases gauss tab b with hc | hc
  · rw [hc]; exact Hg b
  · rw [hc, Ht, Hg]

theorem isl_basic_map_convex_hull_rows (gauss tab : isl_basic_map → isl_basic_map)
    (Hg : ∀ b, ∀ r ∈ (gauss b).ineqs, ∃ s ∈ b.ineqs, sameDirection r.tail s.tail)
    (Ht : ∀ b, ∀ r ∈ (tab b).ineqs, ∃ s ∈ b.ineqs, sameDirection r.tail s.tail) :
    ∀ b, ∀ r ∈ (isl_basic_map_convex_hull gauss tab b).ineqs,
      ∃ s ∈ b.ineqs, sameDirection r.tail s.tail := by
  intro b r hr
  rcases isl_basic_map_convex_hull_cases gauss tab b with hc | hc
  · rw [hc] at hr
    exact Hg b r hr
  · rw [hc] at hr
    obtain ⟨s, hs, hd⟩ := Ht (gauss b) r hr
    obtain ⟨s2, hs2, hd2⟩ := Hg b s hs
    exact ⟨s2, hs2, sameDirection_trans hd hd2⟩

/-- Claim C7 (amended): the simple hull satisfies the sandwich
S ⊆ conv(S) ⊆ simple_hull(S) — every point of the union satisfies the hull,
and since the hull's rows describe a convex set the whole rational convex
hull does too; and every inequality of simple_hull(S) has a coefficient
vector positively proportional to (i.e. the same halfspace direction as)
that of some inequality of some member of S — an exact translate only when
neither `uset_is_bound`'s denominator scaling nor the final stage rescaled
the row.  The external collaborators enter through their spec contracts:
`Hok`/`Hemp` for the LP, `Hah` for the affine hull, point-set preservation
for simplify/gauss/tableau (true of the real collaborators), and the
row-provenance contracts `H*_rows` saying the rewrites only drop or rescale
inequality rows (true of redundancy removal and gcd normalization, and of
Gaussian elimination whenever there are no equalities to substitute into
the inequalities, as in the concrete runs below). -/
theorem simple_hull_sandwich (lp : ℕ → List ℤ → LpResult)
    (ah : List (List ℤ)) (simplify gauss tab : isl_basic_map → isl_basic_map)
    (map : List isl_basic_set)
    (Hok : ∀ j b num den, lp j b = .ok num den → 0 < den ∧
      ∀ x ∈ memSem map j, (num : ℚ) ≤ den * dotF b x)
    (Hemp : ∀ j b, lp j b = .empty → memSem map j = ∅)
    (Hah : ∀ x ∈ unionSem map, ∀ e ∈ ah, affF e x = 0)
    (Hsimp_sem : ∀ b, bmapSem (simplify b) = bmapSem b)
    (Hsimp_rows : ∀ b, ∀ r ∈ (simplify b).ineqs, ∃ s ∈ b.ineqs,
      sameDirection r.tail s.tail)
    (Hgauss_sem : ∀ b, bmapSem (gauss b) = bmapSem b)
    (Hgauss_rows : ∀ b, ∀ r ∈ (gauss b).ineqs, ∃ s ∈ b.ineqs,
      sameDirection r.tail s.tail)
    (Htab_sem : ∀ b, bmapSem (tab b) = bmapSem b)
    (Htab_rows : ∀ b, ∀ r ∈ (tab b).ineqs, ∃ s ∈ b.ineqs,
      sameDirection r.tail s.tail) :
    ∀ hull, isl_map_simple_hull lp ah simplify gauss tab map = some hull →
      (unionSem map ⊆ bsetSem hull) ∧
      (convexHull ℚ (unionSem map) ⊆ bsetSem hull) ∧
      (unionSem map ⊆ convexHull ℚ (unionSem map)) ∧
      (∀ r ∈ hull.ineqs, ∃ bs ∈ map, ∃ src ∈ bs.ineqs,
        sameDirection r.tail src.tail) := by
  intro hull hres
  match map, Hok, Hemp, Hah with
  | [], _, _, _ =>
    simp only [isl_map_simple_hull, Option.some.injEq] at hres
    subst hres
    have hemp : unionSem [] = ∅ := by
      ext x
      simp [unionSem]
    refine ⟨by rw [hemp]; exact Set.empty_subset _, ?_,
      subset_convexHull ℚ _, ?_⟩
    · rw [hemp, convexHull_empty]
      exact Set.empty_subset _
    · intro r hr
      exact absurd hr (by simp)
  | [b0], Hok, Hemp, Hah =>
    simp only [isl_map_simple_hull, Option.some.injEq] at hres
    subst hres
    have hsub : unionSem [b0] ⊆ bsetSem b0 := by
      intro x hx
      obtain ⟨bs, hbs, hxb⟩ := hx
      have hbe : bs = b0 := by simpa using hbs
      exact hbe ▸ hxb
    refine ⟨hsub, convexHull_min hsub (bsetSem_convex b0),
      subset_convexHull ℚ _, ?_⟩
    intro r hr
    exact ⟨b0, by simp, r, hr, sameDirection_refl r.tail⟩
  | a0 :: a1 :: arest, Hok, Hemp, Hah =>
    simp only [isl_map_simple_hull] at hres
    cases hcl : candLoop lp (a0 :: a1 :: arest).length
        ((a0 :: a1 :: arest).flatMap isl_basic_set.ineqs) (fun _ => false) []
      with
    | none => rw [hcl] at hres; exact absurd hres (by simp)
    | some pair =>
      obtain ⟨cands, fl⟩ := pair
      rw [hcl] at hres
      dsimp only at hres
      simp only [Option.some.injEq] at hres
      subst hres
      have hgood : ∀ r ∈ cands,
          (∀ i, i < (a0 :: a1 :: arest).length →
            ∀ x ∈ memSem (a0 :: a1 :: arest) i, 0 ≤ affF r x) ∧
          ∃ src ∈ (a0 :: a1 :: arest).flatMap isl_basic_set.ineqs,
            ∃ m : ℤ, 0 < m ∧ r.tail = src.tail.map (fun a => m * a) := by
        intro r hr
        have := candLoop_spec lp (memSem (a0 :: a1 :: arest))
          (a0 :: a1 :: arest).length Hok Hemp
          ((a0 :: a1 :: arest).flatMap isl_basic_set.ineqs) (fun _ => false)
          [] cands fl (fun i hi => absurd hi (by simp)) hcl r hr
        rcases this with hin | hgood2
        · exact absurd hin (by simp)
        · exact hgood2
      have hsub0 : unionSem (a0 :: a1 :: arest) ⊆ bsetSem ⟨ah, cands⟩ := by
        intro x hx
        constructor
        · intro e he
          exact Hah x hx e he
        · intro r hr
          obtain ⟨j, hj, hxj⟩ := unionSem_index (a0 :: a1 :: arest) x hx
          exact (hgood r hr).1 j hj x hxj
      have hsemB : bmapSem (isl_basic_map_convex_hull gauss tab
          (simplify ⟨ah, cands, false, false⟩)) = bsetSem ⟨ah, cands⟩ := by
        rw [isl_basic_map_convex_hull_sem gauss tab Hgauss_sem Htab_sem,
          Hsimp_sem]
        rfl
      have hsub : unionSem (a0 :: a1 :: arest) ⊆
          bsetSem ⟨(isl_basic_map_convex_hull gauss tab
            (simplify ⟨ah, cands, false, false⟩)).eqs,
            (isl_basic_map_convex_hull gauss tab
            (simplify ⟨ah, cands, false, false⟩)).ineqs⟩ := by
        intro x hx
        have hx2 := hsub0 hx
        show x ∈ bmapSem (isl_basic_map_convex_hull gauss tab
          (simplify ⟨ah, cands, false, false⟩))
        rw [hsemB]
        exact hx2
      refine ⟨hsub, convexHull_min hsub (bsetSem_convex _),
        subset_convexHull ℚ _, ?_⟩
      intro r hr
      obtain ⟨s1, hs1, hd1⟩ := isl_basic_map_convex_hull_rows gauss tab
        Hgauss_rows Htab_rows (simplify ⟨ah, cands, false, false⟩) r hr
      obtain ⟨s2, hs2, hd2⟩ := Hsimp_rows ⟨ah, cands, false, false⟩ s1 hs1
      obtain ⟨_, src, hsrc, m, hm, hteq⟩ := hgood s2 hs2
      have hd3 : sameDirection s2.tail src.tail :=
        ⟨1, m, one_pos, hm, by rw [map_one_mul]; exact hteq⟩
      obtain ⟨bs, hbs, hsrcm⟩ := List.mem_flatMap.mp hsrc
      exact ⟨bs, hbs, src, hsrcm,
        sameDirection_trans (sameDirection_trans hd1 hd2) hd3⟩

theorem mem_memSem0_iff (x : ℕ → ℚ) :
    x ∈ memSem [m0CE, m1CE] 0 ↔
      (0 ≤ x 0 ∧ 0 ≤ x 1 ∧ x 0 ≤ 1 ∧ x 1 ≤ 1) := by
  show x ∈ bsetSem m0CE ↔ _
  constructor
  · intro hx
    have c1 := hx.2 [0, 2, 0] (by simp [m0CE])
    have c2 := hx.2 [0, 0, 1] (by simp [m0CE])
    have c3 := hx.2 [1, -1, 0] (by simp [m0CE])
    have c4 := hx.2 [1, 0, -1] (by simp [m0CE])
    simp only [affF, dotF] at c1 c2 c3 c4
    push_cast at c1 c2 c3 c4
    exact ⟨by linarith, by linarith, by linarith, by linarith⟩
  · rintro ⟨h1, h2, h3, h4⟩
    refine ⟨?_, ?_⟩
    · intro e he
      simp [m0CE] at he
    · intro r hr
      simp only [m0CE] at hr
      fin_cases hr <;> (simp only [affF, dotF]; push_cast; linarith)

theorem mem_memSem1_iff (x : ℕ → ℚ) :
    x ∈ memSem [m0CE, m1CE] 1 ↔
      (0 ≤ x 1 ∧ x 0 ≤ 1 ∧ 1 + 3 * x 1 ≤ 4 * x 0) := by
  show x ∈ bsetSem m1CE ↔ _
  constructor
  · intro hx
    have c1 := hx.2 [0, 0, 1] (by simp [m1CE])
    have c2 := hx.2 [1, -1, 0] (by simp [m1CE])
    have c3 := hx.2 [-1, 4, -3] (by simp [m1CE])
    simp only [affF, dotF] at c1 c2 c3
    push_cast at c1 c2 c3
    exact ⟨by linarith, by linarith, by linarith⟩
  · rintro ⟨h1, h2, h3⟩
    refine ⟨?_, ?_⟩
    · intro e he
      simp [m1CE] at he
    · intro r hr
      simp only [m1CE] at hr
      fin_cases hr <;> (simp only [affF, dotF]; push_cast; linarith)

theorem lpCE_sound : ∀ j b num den, lpCE j b = .ok num den → 0 < den ∧
    ∀ x ∈ memSem [m0CE, m1CE] j, (num : ℚ) ≤ den * dotF b x := by
  intro j b num den hk
  unfold lpCE at hk
  by_cases hj0 : j = 0
  · rw [if_pos hj0] at hk
    subst hj0
    by_cases hb0 : b = [2, 0]
    · rw [if_pos hb0] at hk
      subst hb0
      have e1 : (0 : ℤ) = num := by injection hk
      have e2 : (1 : ℤ) = den := by injection hk
      subst e1; subst e2
      refine ⟨by norm_num, ?_⟩
      intro x hx
      obtain ⟨p1, p2, p3, p4⟩ := (mem_memSem0_iff x).mp hx
      simp only [dotF]
      push_cast
      linarith
    · rw [if_neg hb0] at hk
      by_cases hb1 : b = [0, 1]
      · rw [if_pos hb1] at hk
        subst hb1
        have e1 : (0 : ℤ) = num := by injection hk
        have e2 : (1 : ℤ) = den := by injection hk
        subst e1; subst e2
        refine ⟨by norm_num, ?_⟩
        intro x hx
        obtain ⟨p1, p2, p3, p4⟩ := (mem_memSem0_iff x).mp hx
        simp only [dotF]
        push_cast
        linarith
      · rw [if_neg hb1] at hk
        by_cases hb2 : b = [-1, 0]
        · rw [if_pos hb2] at hk
          subst hb2
          have e1 : (-1 : ℤ) = num := by injection hk
          have e2 : (1 : ℤ) = den := by injection hk
          subst e1; subst e2
          refine ⟨by norm_num, ?_⟩
          intro x hx
          obtain ⟨p1, p2, p3, p4⟩ := (mem_memSem0_iff x).mp hx
          simp only [dotF]
          push_cast
          linarith
        · rw [if_neg hb2] at hk
          by_cases hb3 : b = [0, -1]
          · rw [if_pos hb3] at hk
            subst hb3
            have e1 : (-1 : ℤ) = num := by injection hk
            have e2 : (1 : ℤ) = den := by injection hk
            subst e1; subst e2
            refine ⟨by norm_num, ?_⟩
            intro x hx
            obtain ⟨p1, p2, p3, p4⟩ := (mem_memSem0_iff x).mp hx
            simp only [dotF]
            push_cast
            linarith
          · rw [if_neg hb3] at hk
            by_cases hb4 : b = [4, -3]
            · rw [if_pos hb4] at hk
              subst hb4
              have e1 : (-3 : ℤ) = num := by injection hk
              have e2 : (1 : ℤ) = den := by injection hk
              subst e1; subst e2
              refine ⟨by norm_num, ?_⟩
              intro x hx
              obtain ⟨p1, p2, p3, p4⟩ := (mem_memSem0_iff x).mp hx
              simp only [dotF]
              push_cast
              linarith
            · rw [if_neg hb4] at hk
              exact absurd hk (by simp)
  · rw [if_neg hj0] at hk
    by_cases hj1 : j = 1
    · rw [if_pos hj1] at hk
      subst hj1
      by_cases hb0 : b = [2, 0]
      · rw [if_pos hb0] at hk
        subst hb0
        have e1 : (1 : ℤ) = num := by injection hk
        have e2 : (2 : ℤ) = den := by injection hk
        subst e1; subst e2
        refine ⟨by norm_num, ?_⟩
        intro x hx
        obtain ⟨p1, p2, p3⟩ := (mem_memSem1_iff x).mp hx
        simp only [dotF]
        push_cast
        linarith
      · rw [if_neg hb0] at hk
        by_cases hb1 : b = [0, 1]
        · rw [if_pos hb1] at hk
          subst hb1
          have e1 : (0 : ℤ) = num := by injection hk
          have e2 : (1 : ℤ) = den := by injection hk
          subst e1; subst e2
          refine ⟨by norm_num, ?_⟩
          intro x hx
          obtain ⟨p1, p2, p3⟩ := (mem_memSem1_iff x).mp hx
          simp only [dotF]
          push_cast
          linarith
        · rw [if_neg hb1] at hk
          by_cases hb2 : b = [-1, 0]
          · rw [if_pos hb2] at hk
            subst hb2
            have e1 : (-1 : ℤ) = num := by injection hk
            have e2 : (1 : ℤ) = den := by injection hk
            subst e1; subst e2
            refine ⟨by norm_num, ?_⟩
            intro x hx
            obtain ⟨p1, p2, p3⟩ := (mem_memSem1_iff x).mp hx
            simp only [dotF]
            push_cast
            linarith
          · rw [if_neg hb2] at hk
            by_cases hb3 : b = [0, -1]
            · rw [if_pos hb3] at hk
              subst hb3
              have e1 : (-1 : ℤ) = num := by injection hk
              have e2 : (1 : ℤ) = den := by injection hk
              subst e1; subst e2
              refine ⟨by norm_num, ?_⟩
              intro x hx
              obtain ⟨p1, p2, p3⟩ := (mem_memSem1_iff x).mp hx
              simp only [dotF]
              push_cast
              linarith
            · rw [if_neg hb3] at hk
              by_cases hb4 : b = [4, -3]
              · rw [if_pos hb4] at hk
                subst hb4
                have e1 : (1 : ℤ) = num := by injection hk
                have e2 : (1 : ℤ) = den := by injection hk
                subst e1; subst e2
                refine ⟨by norm_num, ?_⟩
                intro x hx
                obtain ⟨p1, p2, p3⟩ := (mem_memSem1_iff x).mp hx
                simp only [dotF]
                push_cast
                linarith
              · rw [if_neg hb4] at hk
                exact absurd hk (by simp)
    · rw [if_neg hj1] at hk
      exact absurd hk (by simp)

theorem lpCE_att : ∀ j b num den, lpCE j b = .ok num den →
    ∃ x ∈ memSem [m0CE, m1CE] j, (num : ℚ) = den * dotF b x := by
  intro j b num den hk
  unfold lpCE at hk
  by_cases hj0 : j = 0
  · rw [if_pos hj0] at hk
    subst hj0
    by_cases hb0 : b = [2, 0]
    · rw [if_pos hb0] at hk
      subst hb0
      have e1 : (0 : ℤ) = num := by injection hk
      have e2 : (1 : ℤ) = den := by injection hk
      subst e1; subst e2
      refine ⟨pt2 (0) (0), (mem_memSem0_iff _).mpr (by norm_num [pt2]), ?_⟩
      simp only [dotF, pt2]
      norm_num
    · rw [if_neg hb0] at hk
      by_cases hb1 : b = [0, 1]
      · rw [if_pos hb1] at hk
        subst hb1
        have e1 : (0 : ℤ) = num := by injection hk
        have e2 : (1 : ℤ) = den := by injection hk
        subst e1; subst e2
        refine ⟨pt2 (0) (0), (mem_memSem0_iff _).mpr (by norm_num [pt2]), ?_⟩
        simp only [dotF, pt2]
        norm_num
      · rw [if_neg hb1] at hk
        by_cases hb2 : b = [-1, 0]
        · rw [if_pos hb2] at hk
          subst hb2
          have e1 : (-1 : ℤ) = num := by injection hk
          have e2 : (1 : ℤ) = den := by injection hk
          subst e1; subst e2
          refine ⟨pt2 (1) (0), (mem_memSem0_iff _).mpr (by norm_num [pt2]), ?_⟩
          simp only [dotF, pt2]
          norm_num
        · rw [if_neg hb2] at hk
          by_cases hb3 : b = [0, -1]
          · rw [if_pos hb3] at hk
            subst hb3
            have e1 : (-1 : ℤ) = num := by injection hk
            have e2 : (1 : ℤ) = den := by injection hk
            subst e1; subst e2
            refine ⟨pt2 (0) (1), (mem_memSem0_iff _).mpr (by norm_num [pt2]), ?_⟩
            simp only [dotF, pt2]
            norm_num
          · rw [if_neg hb3] at hk
            by_cases hb4 : b = [4, -3]
            · rw [if_pos hb4] at hk
              subst hb4
              have e1 : (-3 : ℤ) = num := by injection hk
              have e2 : (1 : ℤ) = den := by injection hk
              subst e1; subst e2
              refine ⟨pt2 (0) (1), (mem_memSem0_iff _).mpr (by norm_num [pt2]), ?_⟩
              simp only [dotF, pt2]
              norm_num
            · rw [if_neg hb4] at hk
              exact absurd hk (by simp)
  · rw [if_neg hj0] at hk
    by_cases hj1 : j = 1
    · rw [if_pos hj1] at hk
      subst hj1
      by_cases hb0 : b = [2, 0]
      · rw [if_pos hb0] at hk
        subst hb0
        have e1 : (1 : ℤ) = num := by injection hk
        have e2 : (2 : ℤ) = den := by injection hk
        subst e1; subst e2
        refine ⟨pt2 (1/4) (0), (mem_memSem1_iff _).mpr (by norm_num [pt2]), ?_⟩
        simp only [dotF, pt2]
        norm_num
      · rw [if_neg hb0] at hk
        by_cases hb1 : b = [0, 1]
        · rw [if_pos hb1] at hk
          subst hb1
          have e1 : (0 : ℤ) = num := by injection hk
          have e2 : (1 : ℤ) = den := by injection hk
          subst e1; subst e2
          refine ⟨pt2 (1/4) (0), (mem_memSem1_iff _).mpr (by norm_num [pt2]), ?_⟩
          simp only [dotF, pt2]
          norm_num
        · rw [if_neg hb1] at hk
          by_cases hb2 : b = [-1, 0]
          · rw [if_pos hb2] at hk
            subst hb2
            have e1 : (-1 : ℤ) = num := by injection hk
            have e2 : (1 : ℤ) = den := by injection hk
            subst e1; subst e2
            refine ⟨pt2 (1) (0), (mem_memSem1_iff _).mpr (by norm_num [pt2]), ?_⟩
            simp only [dotF, pt2]
            norm_num
          · rw [if_neg hb2] at hk
            by_cases hb3 : b = [0, -1]
            · rw [if_pos hb3] at hk
              subst hb3
              have e1 : (-1 : ℤ) = num := by injection hk
              have e2 : (1 : ℤ) = den := by injection hk
              subst e1; subst e2
              refine ⟨pt2 (1) (1), (mem_memSem1_iff _).mpr (by norm_num [pt2]), ?_⟩
              simp only [dotF, pt2]
              norm_num
            · rw [if_neg hb3] at hk
              by_cases hb4 : b = [4, -3]
              · rw [if_pos hb4] at hk
                subst hb4
                have e1 : (1 : ℤ) = num := by injection hk
                have e2 : (1 : ℤ) = den := by injection hk
                subst e1; subst e2
                refine ⟨pt2 (1/4) (0), (mem_memSem1_iff _).mpr (by norm_num [pt2]), ?_⟩
                simp only [dotF, pt2]
                norm_num
              · rw [if_neg hb4] at hk
                exact absurd hk (by simp)
    · rw [if_neg hj1] at hk
      exact absurd hk (by simp)

theorem lpCE_noempty : ∀ j b, lpCE j b = .empty → memSem [m0CE, m1CE] j = ∅ := by
  intro j b hk
  exfalso
  unfold lpCE at hk
  iterate 14 (all_goals try split at hk)
  all_goals simp at hk

theorem tabCE_sem : ∀ b, bmapSem (tabCE b) = bmapSem b := by
  intro b
  unfold tabCE
  split
  · next heq =>
    subst heq
    show bsetSem ⟨[], [[0, 4, 0], [0, 0, 1], [1, -1, 0], [1, 0, -1]]⟩ =
      bsetSem ⟨[], [[0, 4, 0], [0, 0, 1], [1, -1, 0], [1, 0, -1], [0, 0, 1],
        [1, -1, 0], [3, 4, -3]]⟩
    ext x
    simp only [bsetSem, Set.mem_setOf_eq]
    constructor
    · rintro ⟨he, hi⟩
      refine ⟨he, ?_⟩
      intro r hr
      have c1 := hi [0, 4, 0] (by simp)
      have c4 := hi [1, 0, -1] (by simp)
      fin_cases hr
      · exact hi _ (by simp)
      · exact hi _ (by simp)
      · exact hi _ (by simp)
      · exact hi _ (by simp)
      · exact hi _ (by simp)
      · exact hi _ (by simp)
      · simp only [affF, dotF] at c1 c4 ⊢
        push_cast at c1 c4 ⊢
        linarith
    · rintro ⟨he, hi⟩
      refine ⟨he, ?_⟩
      intro r hr
      fin_cases hr
      · exact hi _ (by simp)
      · exact hi _ (by simp)
      · exact hi _ (by simp)
      · exact hi _ (by simp)
  · rfl

theorem tabCE_rows : ∀ b, ∀ r ∈ (tabCE b).ineqs,
    ∃ s ∈ b.ineqs, sameDirection r.tail s.tail := by
  intro b r hr
  unfold tabCE at hr
  split at hr
  · next heq =>
    subst heq
    refine ⟨r, ?_, sameDirection_refl r.tail⟩
    fin_cases hr
    · exact by simp
    · exact by simp
    · exact by simp
    · exact by simp
  · exact ⟨r, hr, sameDirection_refl r.tail⟩

/-- Claim C7 counterexample: on the union of the unit square (with the
doubled constraint `2x ≥ 0`) and the triangle `(1/4,0),(1,0),(1,1)`, with
the LP oracle returning the true minima (proved sound, attained and
never-empty below) and the final stage routed through the
`isl_basic_map_convex_hull` embedding (simplify and gauss act as the
identity, faithful to the real collaborators on this equality-free
candidate up to gcd normalization — which would rescale `[0,4,0]` to
`[0,1,0]`, also not an input coefficient vector — and the tableau instance
`tabCE`, whose point-set preservation and row provenance are the last two
conjuncts), the hull contains the inequality row `[0,4,0]`: its coefficient
vector `[4,0]` is not the coefficient vector of any inequality of any
member, because `uset_is_bound` scaled the copied row `[0,2,0]` by the
denominator 2 of the triangle's minimum of `2x`.  So not every inequality
of the simple hull is a translate of an input inequality. -/
theorem simple_hull_translate_cex :
    isl_map_simple_hull lpCE [] id id tabCE [m0CE, m1CE] =
      some ⟨[], [[0, 4, 0], [0, 0, 1], [1, -1, 0], [1, 0, -1]]⟩ ∧
    ([0, 4, 0] : List ℤ).tail ∉
      (([m0CE, m1CE].flatMap isl_basic_set.ineqs).map List.tail) ∧
    (∀ j b num den, lpCE j b = .ok num den → 0 < den ∧
      (∀ x ∈ memSem [m0CE, m1CE] j, (num : ℚ) ≤ den * dotF b x) ∧
      (∃ x ∈ memSem [m0CE, m1CE] j, (num : ℚ) = den * dotF b x)) ∧
    (∀ j b, lpCE j b = .empty → memSem [m0CE, m1CE] j = ∅) ∧
    (∀ b, bmapSem (tabCE b) = bmapSem b) ∧
    (∀ b, ∀ r ∈ (tabCE b).ineqs, ∃ s ∈ b.ineqs,
      sameDirection r.tail s.tail) := by
  refine ⟨by decide, by decide, ?_, lpCE_noempty, tabCE_sem, tabCE_rows⟩
  intro j b num den hk
  exact ⟨(lpCE_sound j b num den hk).1, (lpCE_sound j b num den hk).2,
    lpCE_att j b num den hk⟩

/-- Claim C7 witness: a two-member instance whose only candidate objective
is reported unbounded, so the hull is the universe (all oracles of the
final stage are the identity, with trivially satisfied contracts); the
sandwich conclusion of the theorem applies. -/
theorem simple_hull_sandwich_witness :
    isl_map_simple_hull lpZW [] id id id [⟨[], [[0, 1]]⟩, ⟨[], [[0, 1]]⟩] =
      some ⟨[], []⟩ ∧
    unionSem [⟨[], [[0, 1]]⟩, ⟨[], [[0, 1]]⟩] ⊆ bsetSem ⟨[], []⟩ := by
  have hrun : isl_map_simple_hull lpZW [] id id id
      [⟨[], [[0, 1]]⟩, ⟨[], [[0, 1]]⟩] = some ⟨[], []⟩ := by decide
  refine ⟨hrun, ?_⟩
  have Hok : ∀ j b num den, lpZW j b = .ok num den → 0 < den ∧
      ∀ x ∈ memSem [⟨[], [[0, 1]]⟩, ⟨[], [[0, 1]]⟩] j,
        (num : ℚ) ≤ den * dotF b x := by
    intro j b num den hk
    unfold lpZW at hk
    by_cases hz : b.all (fun a => a == 0) = true
    · rw [if_pos hz] at hk
      have e1 : (0 : ℤ) = num := by injection hk
      have e2 : (1 : ℤ) = den := by injection hk
      subst e1; subst e2
      refine ⟨one_pos, ?_⟩
      intro x hx
      have hall : ∀ a ∈ b, a = 0 := by
        intro a ha
        simpa using List.all_eq_true.mp hz a ha
      rw [dotF_zero_of_all_zero b x hall]
      norm_num
    · rw [if_neg hz] at hk
      exact absurd hk (by simp)
  have Hemp : ∀ j b, lpZW j b = .empty →
      memSem [⟨[], [[0, 1]]⟩, ⟨[], [[0, 1]]⟩] j = ∅ := by
    intro j b hk
    unfold lpZW at hk
    by_cases hz : b.all (fun a => a == 0) = true
    · rw [if_pos hz] at hk; exact absurd hk (by simp)
    · rw [if_neg hz] at hk; exact absurd hk (by simp)
  exact (simple_hull_sandwich lpZW [] id id id
    [⟨[], [[0, 1]]⟩, ⟨[], [[0, 1]]⟩] Hok Hemp
    (fun x _ e he => absurd he (by simp))
    (fun b => rfl) (fun b r hr => ⟨r, hr, sameDirection_refl r.tail⟩)
    (fun b => rfl) (fun b r hr => ⟨r, hr, sameDirection_refl r.tail⟩)
    (fun b => rfl) (fun b r hr => ⟨r, hr, sameDirection_refl r.tail⟩)
    ⟨[], []⟩ hrun).1
